import Mathlib

/-!
Verification development for the witness-stack module
(`src/bitcoin/src/blockdata/witness.rs`).

The Rust code is shallowly embedded: byte buffers are `List Nat` (each entry
a byte value `< 256`), machine integers (`usize`, `u64`, `u32`) are `Nat`
with explicit truncation (`% 2^w`) exactly where the source performs a
narrowing cast, fallible operations return `Except` or `Option`, and slice
writes are modelled by `writeSlice`.  Out-of-range slice indexing, which
panics in Rust, is modelled explicitly where a claim depends on it (the
`Lookup.panicked` result of the accessors).
-/

set_option maxHeartbeats 1000000

/-- Size in bytes of `u32` (`core::mem::size_of::<u32>()` in the source). -/
def U32_SIZE : Nat := 4

/-- Modelled from the spec: the "maximum permitted vector allocation"
(`MAX_VEC_SIZE` from the consensus-encode module, which is outside `src/`).
Its concrete value is 4,000,000 bytes in the repository. -/
def MAX_VEC_SIZE : Nat := 4000000

/-- Largest value of the 64-bit `usize` type. -/
def USIZE_MAX : Nat := 2 ^ 64 - 1

/-- `usize::checked_add`: `none` exactly when the sum overflows. -/
def checked_add (a b : Nat) : Option Nat :=
  if USIZE_MAX < a + b then none else some (a + b)

/-- Little-endian byte decomposition: the low `k` bytes of `n`.
This is `(n : uintk).to_ne_bytes()` on a little-endian target. -/
def leBytes : Nat → Nat → List Nat
  | 0, _ => []
  | k + 1, n => n % 256 :: leBytes k (n / 256)

/-- Recompose a little-endian byte list into the value it denotes. -/
def decodeLE : List Nat → Nat
  | [] => 0
  | b :: rest => b + 256 * decodeLE rest

/-- Errors surfaced by the decode path.  `oversizedVectorAllocation` carries
the requested size and the permitted maximum, as in the source's
`Error::OversizedVectorAllocation { requested, max }`.  `nonMinimalVarInt`
and `ioError` stand for the length-prefix codec's non-canonical-encoding
error and the byte source's short-read/IO errors respectively. -/
inductive DecodeError where
  | oversizedVectorAllocation (requested : Nat) (max : Nat)
  | nonMinimalVarInt
  | ioError
  deriving DecidableEq, Repr

namespace VarInt

/-- Modelled from the spec: `VarInt::len`, the encoded width of the
variable-length unsigned integer codec (an external collaborator defined in
the consensus-encode module, outside `src/`). -/
def len (n : Nat) : Nat :=
  if n ≤ 0xFC then 1
  else if n ≤ 0xFFFF then 3
  else if n ≤ 0xFFFFFFFF then 5
  else 9

/-- Modelled from the spec: `VarInt::consensus_encode` as the list of bytes
written.  Values below `0xFD` are a single byte; larger values get a marker
byte (`0xFD`/`0xFE`/`0xFF`) followed by the value in 2/4/8 little-endian
bytes. -/
def encode (n : Nat) : List Nat :=
  if n ≤ 0xFC then [n]
  else if n ≤ 0xFFFF then 0xFD :: leBytes 2 n
  else if n ≤ 0xFFFFFFFF then 0xFE :: leBytes 4 n
  else 0xFF :: leBytes 8 n

/-- Modelled from the spec: `VarInt::consensus_decode` on a byte stream.
Returns the decoded value and the unconsumed rest of the stream.  The codec
rejects non-canonical (non-minimal) encodings, per the spec's
malformed-length-prefix error kind. -/
def decode (l : List Nat) : Except DecodeError (Nat × List Nat) :=
  match l with
  | [] => .error .ioError
  | b :: rest =>
    if b = 0xFF then
      if rest.length < 8 then .error .ioError
      else
        let x := decodeLE (rest.take 8)
        if x ≤ 0xFFFFFFFF then .error .nonMinimalVarInt
        else .ok (x, rest.drop 8)
    else if b = 0xFE then
      if rest.length < 4 then .error .ioError
      else
        let x := decodeLE (rest.take 4)
        if x ≤ 0xFFFF then .error .nonMinimalVarInt
        else .ok (x, rest.drop 4)
    else if b = 0xFD then
      if rest.length < 2 then .error .ioError
      else
        let x := decodeLE (rest.take 2)
        if x < 0xFD then .error .nonMinimalVarInt
        else .ok (x, rest.drop 2)
    else .ok (b, rest)

end VarInt

/-- Overwrite `b.length` entries of `buf` starting at position `pos`:
the model of Rust's `buf[pos..pos + b.len()].copy_from_slice(&b)` (and of
writing through a sub-slice writer).  In every use below the write is within
bounds (`pos + b.length ≤ buf.length`), where this coincides with the Rust
operation; an out-of-bounds `copy_from_slice` would panic in Rust. -/
def writeSlice (buf : List Nat) (pos : Nat) (b : List Nat) : List Nat :=
  buf.take pos ++ b ++ buf.drop (pos + b.length)

/-- `slice::rotate_right(k)` for `k ≤ l.length` (Rust panics otherwise;
every use below satisfies the bound): the last `k` entries move to the
front. -/
def rotateRight (l : List Nat) (k : Nat) : List Nat :=
  l.drop (l.length - k) ++ l.take (l.length - k)

/-- The doubling loop of `resize_if_needed`, made structurally recursive on
an explicit bound on the number of doublings (`fuel`); the callers pass
`fuel = required_len + 1`, which always suffices since the start value is
at least 1 and doubling from `n ≥ 1` exceeds `r` after at most `r` steps. -/
def growLenFuel : Nat → Nat → Nat → Nat
  | 0, n, _ => n
  | fuel + 1, n, r => if n ≤ r then growLenFuel fuel (2 * n) r else n

/-- `fn resize_if_needed(vec, required_len)`: grow (never shrink) the buffer
to a geometrically chosen length strictly greater than `required_len`.
`List` resize-to-`k`-with-zero-fill is `take k` padded with zeros. -/
def resize_if_needed (vec : List Nat) (required_len : Nat) : List Nat :=
  if required_len ≥ vec.length then
    let new_len := growLenFuel (required_len + 1) (max vec.length 1) required_len
    vec.take new_len ++ List.replicate (new_len - vec.length) 0
  else vec

/-- The `Witness` struct: a single packed byte buffer `content` holding the
length-prefixed elements followed by a 4-byte-per-element index region,
together with the element count and the payload/index boundary. -/
structure Witness where
  content : List Nat
  witness_elements : Nat
  indices_start : Nat
  deriving DecidableEq, Repr

/-- `fn encode_cursor`: store `value as u32` in native (little-endian) byte
order at index-region slot `index`.  The `as u32` cast truncates the value
modulo `2^32`, which `leBytes 4` performs. -/
def encode_cursor (bytes : List Nat) (start_of_indices index value : Nat) : List Nat :=
  writeSlice bytes (start_of_indices + index * U32_SIZE) (leBytes 4 value)

/-- `fn decode_cursor`: read index-region slot `index` as a `u32`, or `none`
when the four bytes would fall past the end of the buffer.  The offset
arithmetic `start_of_indices + index * U32_SIZE` and `start + U32_SIZE` is
`usize` arithmetic, which wraps modulo 2^64 (release-mode overflow
semantics), so both sums carry an explicit reduction mod 2^64. -/
def decode_cursor (bytes : List Nat) (start_of_indices index : Nat) : Option Nat :=
  let start := (start_of_indices + index * U32_SIZE) % 2 ^ 64
  let endPos := (start + U32_SIZE) % 2 ^ 64
  if bytes.length < endPos then none
  else some (decodeLE ((bytes.drop start).take U32_SIZE))

namespace Witness

/-- `Witness::default()` / `Witness::new()`: the empty stack. -/
def new : Witness := { content := [], witness_elements := 0, indices_start := 0 }

/-- The per-element content size term of `from_vec`
(`el.len() + VarInt(el.len() as u64).len()` summed over the collection). -/
def contentSize (vec : List (List Nat)) : Nat :=
  (vec.map (fun el => el.length + VarInt.len el.length)).sum

/-- The loop body of `Witness::from_vec`: state is
(content, cursor, running element index `i`). -/
def from_vecStep (content_size : Nat) (st : List Nat × Nat × Nat) (el : List Nat) :
    List Nat × Nat × Nat :=
  match st with
  | (content, cursor, i) =>
    let content := encode_cursor content content_size i cursor
    let el_len_varint_len := VarInt.len el.length
    let content := writeSlice content cursor (VarInt.encode el.length)
    let cursor := cursor + el_len_varint_len
    let content := writeSlice content cursor el
    (content, cursor + el.length, i + 1)

/-- `Witness::from_vec`: one-shot construction of the packed buffer from an
ordered collection of byte strings. -/
def from_vec (vec : List (List Nat)) : Witness :=
  let witness_elements := vec.length
  let index_size := witness_elements * U32_SIZE
  let content_size := contentSize vec
  let st := vec.foldl (from_vecStep content_size)
    (List.replicate (content_size + index_size) 0, 0, 0)
  { content := st.1, witness_elements := witness_elements, indices_start := content_size }

/-- `Witness::len`. -/
def len (w : Witness) : Nat := w.witness_elements

/-- `Witness::is_empty`. -/
def is_empty (w : Witness) : Bool := w.witness_elements = 0

/-- `Witness::clear`. -/
def clear (_w : Witness) : Witness :=
  { content := [], witness_elements := 0, indices_start := 0 }

/-- `Witness::push`: append one element.  The buffer grows by
(varint width + element length + 4) zero bytes at the tail, the extended
index-region suffix rotates right so the new payload entry's slot opens up
before the index region, and the new index entry, length prefix and element
bytes are written into the vacated slots. -/
def push (w : Witness) (new_element : List Nat) : Witness :=
  let witness_elements := w.witness_elements + 1
  let previous_content_end := w.indices_start
  let element_len_varint_len := VarInt.len new_element.length
  let new_item_total_len := element_len_varint_len + new_element.length
  let content := w.content ++ List.replicate (new_item_total_len + U32_SIZE) 0
  let content := content.take w.indices_start ++
    rotateRight (content.drop w.indices_start) new_item_total_len
  let indices_start := w.indices_start + new_item_total_len
  let content := encode_cursor content indices_start (witness_elements - 1)
    previous_content_end
  let content := writeSlice content previous_content_end
    (VarInt.encode new_element.length)
  let content := writeSlice content (previous_content_end + element_len_varint_len)
    new_element
  { content := content, witness_elements := witness_elements,
    indices_start := indices_start }

/-- `Witness::push_bitcoin_signature`: append a DER signature with a
one-byte sighash-type tag.  Modelled from the spec for the external
`SerializedSignature` type (at most 72 bytes, enforced here by `take 72`)
and the `EcdsaSighashType as u8` cast (`% 256`). -/
def push_bitcoin_signature (w : Witness) (signature : List Nat) (hash_type : Nat) :
    Witness :=
  w.push (signature.take 72 ++ [hash_type % 256])

/-- Result of a random-access lookup.  `found`/`absent` are the
`Some`/`None` of the Rust `Option<&[u8]>`; `panicked` marks the executions
where the Rust code would index a slice out of bounds and panic. -/
inductive Lookup where
  | found (bytes : List Nat)
  | absent
  | panicked
  deriving DecidableEq, Repr

/-- `Witness::element_at`: decode the length prefix found at byte offset
`index` of `content` and return that many following bytes.  A failing
varint decode is `absent` (the source's `.ok()?`); slicing past the end of
`content` is a panic in the source (`&self.content[index..]` and
`&self.content[start..start + n]`). -/
def element_at (w : Witness) (index : Nat) : Lookup :=
  if w.content.length < index then .panicked
  else
    match VarInt.decode (w.content.drop index) with
    | .error _ => .absent
    | .ok (v, _) =>
      let start := index + VarInt.len v
      if w.content.length < start + v then .panicked
      else .found ((w.content.drop start).take v)

/-- `Witness::nth`: look up the `index`-th element through the index
region. -/
def nth (w : Witness) (index : Nat) : Lookup :=
  match decode_cursor w.content w.indices_start index with
  | none => .absent
  | some pos => w.element_at pos

/-- `Witness::last`. -/
def last (w : Witness) : Lookup :=
  if w.witness_elements = 0 then .absent
  else w.nth (w.witness_elements - 1)

/-- `Witness::second_to_last`. -/
def second_to_last (w : Witness) : Lookup :=
  if w.witness_elements ≤ 1 then .absent
  else w.nth (w.witness_elements - 2)

/-- `impl Index<usize> for Witness`: `nth` with `expect`, i.e. any
non-`found` outcome is a panic. -/
def index (w : Witness) (i : Nat) : Lookup :=
  match w.nth i with
  | .found b => .found b
  | _ => .panicked

/-- `Witness::get_tapscript`: BIP341 annex-aware extraction of the
tapscript candidate. -/
def get_tapscript (w : Witness) : Lookup :=
  let len := w.len
  match w.last with
  | .panicked => .panicked
  | .absent => .absent
  | .found last_elem =>
    let script_pos_from_last :=
      if 2 ≤ len ∧ last_elem.head? = some 0x50 then 3 else 2
    if len < script_pos_from_last then .absent
    else w.nth (len - script_pos_from_last)

/-- `Witness::consensus_encode`: the pair of (bytes written to the sink,
returned byte count).  The sink is modelled as pure accumulation, per the
spec the encoder has no failure mode of its own. -/
def consensus_encode (w : Witness) : List Nat × Nat :=
  let lenVarint := VarInt.encode w.witness_elements
  let content_with_indices_len := w.content.length
  let indices_size := w.witness_elements * U32_SIZE
  let content_len := content_with_indices_len - indices_size
  (lenVarint ++ w.content.take content_len, content_len + VarInt.len w.witness_elements)

/-- The element loop of `Witness::consensus_decode`: reads `n` elements
from the byte stream `r`, returning the final (content, cursor, indices,
unconsumed stream). -/
def decodeElems (r : List Nat) (n : Nat) (cursor : Nat) (content indices : List Nat) :
    Except DecodeError (List Nat × Nat × List Nat × List Nat) :=
  match n with
  | 0 => .ok (content, cursor, indices, r)
  | n' + 1 =>
    match VarInt.decode r with
    | .error e => .error e
    | .ok (element_size, r₁) =>
      let element_size_varint_len := VarInt.len element_size
      match checked_add cursor element_size with
      | none => .error (.oversizedVectorAllocation USIZE_MAX MAX_VEC_SIZE)
      | some c₁ =>
        match checked_add c₁ element_size_varint_len with
        | none => .error (.oversizedVectorAllocation USIZE_MAX MAX_VEC_SIZE)
        | some required_len =>
          if MAX_VEC_SIZE < required_len then
            .error (.oversizedVectorAllocation required_len MAX_VEC_SIZE)
          else
            let indices := indices ++ leBytes 4 cursor
            let content := resize_if_needed content required_len
            let content := writeSlice content cursor (VarInt.encode element_size)
            let cursor := cursor + element_size_varint_len
            if r₁.length < element_size then .error .ioError
            else
              let content := writeSlice content cursor (r₁.take element_size)
              decodeElems (r₁.drop element_size) n' (cursor + element_size)
                content indices

/-- `Witness::consensus_decode` on a byte stream: returns the decoded stack
and the unconsumed rest of the stream. -/
def consensus_decode (r : List Nat) : Except DecodeError (Witness × List Nat) :=
  match VarInt.decode r with
  | .error e => .error e
  | .ok (witness_elements, r₀) =>
    if witness_elements = 0 then .ok (Witness.new, r₀)
    else
      match decodeElems r₀ witness_elements 0 (List.replicate 128 0) [] with
      | .error e => .error e
      | .ok (content, cursor, indices, rest) =>
        .ok ({ content := content.take cursor ++ indices,
               witness_elements := witness_elements,
               indices_start := cursor }, rest)

/-- The fused loop of `Iter::next` driven to exhaustion (`Iterator` call
sites in `to_vec`/`serialized_len` consume the iterator fully): `some els`
is the collected element list, `none` marks an execution where `Iter::next`
would index out of bounds and panic.  Iteration ends when `decode_cursor`
or the varint decode fails (`?` / `.ok()?` in the source).  `Iter::next`
reads the cursor through `decode_cursor`; since the iterator's own cursor
starts at 0 and grows by one per step, the offsets `is + ci * U32_SIZE + 4`
it reaches never exceed `inner.length + 4`, so on every buffer shorter than
2^64 − 4 bytes the `usize` sums cannot wrap and are written here without
the reduction mod 2^64. -/
def iterCollect (inner : List Nat) (is ci : Nat) : Option (List (List Nat)) :=
  if h : inner.length < is + ci * U32_SIZE + U32_SIZE then some []
  else
    let idx := decodeLE ((inner.drop (is + ci * U32_SIZE)).take U32_SIZE)
    if inner.length < idx then none
    else
      match VarInt.decode (inner.drop idx) with
      | .error _ => some []
      | .ok (v, _) =>
        let start := idx + VarInt.len v
        if inner.length < start + v then none
        else
          match iterCollect inner is (ci + 1) with
          | none => none
          | some rest => some (((inner.drop start).take v) :: rest)
termination_by inner.length + 1 - (is + ci * U32_SIZE)
decreasing_by
  simp only [not_lt, U32_SIZE] at *
  omega

/-- `Witness::to_vec`: collect the iterated elements into an owned
collection (`none` = the iteration panicked). -/
def to_vec (w : Witness) : Option (List (List Nat)) :=
  iterCollect w.content w.indices_start 0

/-- `Witness::serialized_len`: sum of (varint width + length) over the
iterated elements, plus the width of the element-count varint (`none` = the
iteration panicked). -/
def serialized_len (w : Witness) : Option Nat :=
  (iterCollect w.content w.indices_start 0).map
    (fun els => (els.map (fun el => VarInt.len el.length + el.length)).sum +
      VarInt.len w.witness_elements)

end Witness

/-- A public operation on the stack, for quantifying over operation
sequences: the constructors mirror `new`, `from_vec`, `consensus_decode`,
`push`, `push_bitcoin_signature` and `clear`. -/
inductive Op where
  | newStack
  | fromVec (v : List (List Nat))
  | decode (bytes : List Nat)
  | push (el : List Nat)
  | pushSig (sig : List Nat) (hashTy : Nat)
  | clear
  deriving Repr

/-- Apply one public operation to the current stack.  The constructor-like
operations (`newStack`, `fromVec`, `decode`) replace the stack; a failing
decode leaves it unchanged (no stack is produced). -/
def applyOp (w : Witness) : Op → Witness
  | .newStack => Witness.new
  | .fromVec v => Witness.from_vec v
  | .decode bytes =>
    match Witness.consensus_decode bytes with
    | .ok (w', _) => w'
    | .error _ => w
  | .push el => w.push el
  | .pushSig sig hashTy => w.push_bitcoin_signature sig hashTy
  | .clear => w.clear

/-- The stack reached from the empty stack by a sequence of public
operations. -/
def applyOps (ops : List Op) : Witness :=
  ops.foldl applyOp Witness.new

/-- Follows the spec's words (§3, invariants 1 and 2, as quoted by the
claim): the region arithmetic `indices_start ≤ content.len()` and
`content.len() − indices_start == element_count × 4`, and for every
`i < element_count` the index entry decodes to an offset `o` whose entry
(length-prefix width plus declared element length) stays within
`[0, indices_start)`.  Boolean-valued so that it is directly computable. -/
def entryOk (w : Witness) (i : Nat) : Bool :=
  match decode_cursor w.content w.indices_start i with
  | none => false
  | some o =>
    match VarInt.decode (w.content.drop o) with
    | .ok (v, _) => decide (o + VarInt.len v + v ≤ w.indices_start)
    | .error _ => false

/-- Follows the spec's words (§3, invariants 1 and 2): see `entryOk`. -/
def invariantHolds (w : Witness) : Bool :=
  decide (w.indices_start ≤ w.content.length) &&
  decide (w.content.length - w.indices_start = w.witness_elements * U32_SIZE) &&
  (List.range w.witness_elements).all (entryOk w)

namespace Witness

/-- The length-prefixed wire image of one element: its length as a varint
followed by its raw bytes. -/
def itemBytes (el : List Nat) : List Nat := VarInt.encode el.length ++ el

/-- The payload region of the canonical packed layout of an element list. -/
def payloadBytes (l : List (List Nat)) : List Nat := (l.map itemBytes).flatten

/-- The byte offset at which element `i`'s length prefix starts in the
payload region. -/
def offsetAt (l : List (List Nat)) (i : Nat) : Nat := contentSize (l.take i)

/-- The index region of the canonical packed layout: four little-endian
bytes per element, each holding that element's payload offset truncated to
32 bits. -/
def idxBytes (l : List (List Nat)) : List Nat :=
  ((List.range l.length).map (fun i => leBytes 4 (offsetAt l i))).flatten

/-- The index bytes produced when the payload region of `l` starts at byte
offset `c` of a larger payload: each entry is `c` plus the element's local
offset, truncated to 32 bits. -/
def idxBytesFrom (c : Nat) (l : List (List Nat)) : List Nat :=
  ((List.range l.length).map (fun i => leBytes 4 (c + offsetAt l i))).flatten

end Witness

/-- Follows the spec's words (§4.8, as quoted by the claim): the
tapscript-extraction rule stated directly on the element list, for
comparison with `Witness.get_tapscript`. -/
def tapscriptSpec (l : List (List Nat)) : Witness.Lookup :=
  if l.length = 0 then .absent
  else
    let pos := if 2 ≤ l.length ∧ (l.getLastD []).head? = some 0x50 then 3 else 2
    if l.length < pos then .absent
    else .found (l.getD (l.length - pos) [])

/-- A 2^32 − 3 byte element of `0xFF` bytes.  Pushing it makes the next
element's payload offset 2^32 + 2, which does not fit in a 32-bit index
entry. -/
def bigElem : List Nat := List.replicate (2 ^ 32 - 3) 255

/-- The two-element collection whose packed layout has a wrapped 32-bit
index entry: the second element's offset 2^32 + 2 is stored as 2. -/
def bigVec : List (List Nat) := [bigElem, []]

/-! ### Little-endian byte lemmas -/

theorem leBytes_length (k n : Nat) : (leBytes k n).length = k := by
  induction k generalizing n with
  | zero => rfl
  | succ k ih => simp [leBytes, ih]

theorem leBytes_lt (k n : Nat) : ∀ b ∈ leBytes k n, b < 256 := by
  induction k generalizing n with
  | zero => simp [leBytes]
  | succ k ih =>
    intro b hb
    simp only [leBytes, List.mem_cons] at hb
    rcases hb with h | h
    · omega
    · exact ih _ b h

theorem decodeLE_leBytes (k n : Nat) : decodeLE (leBytes k n) = n % 256 ^ k := by
  induction k generalizing n with
  | zero => simp [leBytes, decodeLE, Nat.mod_one]
  | succ k ih =>
    simp only [leBytes, decodeLE, ih]
    rw [pow_succ, mul_comm (256 ^ k) 256, Nat.mod_mul]

theorem decodeLE_leBytes_self (k n : Nat) (h : n < 256 ^ k) :
    decodeLE (leBytes k n) = n := by
  rw [decodeLE_leBytes, Nat.mod_eq_of_lt h]

theorem leBytes_decodeLE (l : List Nat) (h : ∀ b ∈ l, b < 256) :
    leBytes l.length (decodeLE l) = l := by
  induction l with
  | nil => rfl
  | cons b rest ih =>
    have hb : b < 256 := h b (by simp)
    have hrest : ∀ x ∈ rest, x < 256 := fun x hx => h x (by simp [hx])
    simp only [List.length_cons, leBytes, decodeLE]
    congr 1
    · omega
    · have hdiv : (b + 256 * decodeLE rest) / 256 = decodeLE rest := by omega
      rw [hdiv, ih hrest]

theorem decodeLE_lt (l : List Nat) (h : ∀ b ∈ l, b < 256) :
    decodeLE l < 256 ^ l.length := by
  induction l with
  | nil => simp [decodeLE]
  | cons b rest ih =>
    have hb : b < 256 := h b (by simp)
    have hr := ih (fun x hx => h x (by simp [hx]))
    simp only [decodeLE, List.length_cons]
    calc b + 256 * decodeLE rest < 256 * (decodeLE rest + 1) := by omega
      _ ≤ 256 * 256 ^ rest.length := by omega
      _ = 256 ^ (rest.length + 1) := by rw [pow_succ]; ring

/-! ### Small list helpers -/

theorem take_len_append {α : Type} (k : Nat) (a b : List α) (h : a.length = k) :
    (a ++ b).take k = a := by
  subst h; exact List.take_left a b

theorem drop_len_append {α : Type} (k : Nat) (a b : List α) (h : a.length = k) :
    (a ++ b).drop k = b := by
  subst h; exact List.drop_left a b

/-! ### VarInt lemmas -/

theorem VarInt.length_encode (n : Nat) : (VarInt.encode n).length = VarInt.len n := by
  unfold VarInt.encode VarInt.len
  split_ifs <;> simp [leBytes_length]

theorem VarInt.len_pos (n : Nat) : 0 < VarInt.len n := by
  unfold VarInt.len; split_ifs <;> omega

theorem VarInt.encode_bytes_lt (n : Nat) (h : n < 2 ^ 64) :
    ∀ b ∈ VarInt.encode n, b < 256 := by
  intro b hb
  unfold VarInt.encode at hb
  split_ifs at hb with h1 h2 h3 <;> simp at hb
  · omega
  · rcases hb with h' | h'
    · omega
    · exact leBytes_lt 2 n b h'
  · rcases hb with h' | h'
    · omega
    · exact leBytes_lt 4 n b h'
  · rcases hb with h' | h'
    · omega
    · exact leBytes_lt 8 n b h' 

theorem VarInt.decode_encode (n : Nat) (hn : n < 2 ^ 64) (rest : List Nat) :
    VarInt.decode (VarInt.encode n ++ rest) = .ok (n, rest) := by
  unfold VarInt.encode
  split_ifs with h1 h2 h3
  · show VarInt.decode (n :: rest) = _
    simp only [VarInt.decode]
    rw [if_neg (by omega), if_neg (by omega), if_neg (by omega)]
  · show VarInt.decode (0xFD :: (leBytes 2 n ++ rest)) = _
    norm_num [VarInt.decode, List.length_append, leBytes_length,
      take_len_append 2 _ _ (leBytes_length 2 n),
      drop_len_append 2 _ _ (leBytes_length 2 n),
      decodeLE_leBytes_self 2 n (by norm_num; omega : n < 256 ^ 2)]
    omega
  · show VarInt.decode (0xFE :: (leBytes 4 n ++ rest)) = _
    norm_num [VarInt.decode, List.length_append, leBytes_length,
      take_len_append 4 _ _ (leBytes_length 4 n),
      drop_len_append 4 _ _ (leBytes_length 4 n),
      decodeLE_leBytes_self 4 n (by norm_num; omega : n < 256 ^ 4)]
    omega
  · show VarInt.decode (0xFF :: (leBytes 8 n ++ rest)) = _
    norm_num [VarInt.decode, List.length_append, leBytes_length,
      take_len_append 8 _ _ (leBytes_length 8 n),
      drop_len_append 8 _ _ (leBytes_length 8 n),
      decodeLE_leBytes_self 8 n (by norm_num; omega : n < 256 ^ 8)]
    omega

theorem VarInt.encode_of_decode (l : List Nat) (v : Nat) (rest : List Nat)
    (hb : ∀ b ∈ l, b < 256) (h : VarInt.decode l = .ok (v, rest)) :
    VarInt.encode v ++ rest = l ∧ v < 2 ^ 64 := by
  match l with
  | [] => simp [VarInt.decode] at h
  | b :: r =>
    have hbb : b < 256 := hb b (by simp)
    have hr : ∀ x ∈ r, x < 256 := fun x hx => hb x (by simp [hx])
    simp only [VarInt.decode] at h
    by_cases hff : b = 255
    · rw [if_pos hff] at h
      split_ifs at h with hlen8 hmin8
      simp only [Except.ok.injEq, Prod.mk.injEq] at h
      obtain ⟨hv, hrest⟩ := h
      have hlen : (r.take 8).length = 8 := by rw [List.length_take]; omega
      have hvlt : v < 2 ^ 64 := by
        have hd := decodeLE_lt (r.take 8) (fun x hx => hr x (List.take_subset _ _ hx))
        rw [hlen] at hd
        omega
      refine ⟨?_, hvlt⟩
      have henc : VarInt.encode v = 0xFF :: leBytes 8 v := by
        unfold VarInt.encode
        rw [if_neg (by omega), if_neg (by omega), if_neg (by omega)]
      have hle : leBytes 8 v = r.take 8 := by
        have hdl := leBytes_decodeLE (r.take 8) (fun x hx => hr x (List.take_subset _ _ hx))
        rw [hlen] at hdl
        rw [← hv]
        exact hdl
      rw [henc, hle, ← hrest, hff]
      simp [List.take_append_drop]
    · rw [if_neg hff] at h
      by_cases hfe : b = 254
      · rw [if_pos hfe] at h
        split_ifs at h with hlen4 hmin4
        simp only [Except.ok.injEq, Prod.mk.injEq] at h
        obtain ⟨hv, hrest⟩ := h
        have hlen : (r.take 4).length = 4 := by rw [List.length_take]; omega
        have hvlt : v < 2 ^ 32 := by
          have hd := decodeLE_lt (r.take 4) (fun x hx => hr x (List.take_subset _ _ hx))
          rw [hlen] at hd
          omega
        refine ⟨?_, by omega⟩
        have henc : VarInt.encode v = 0xFE :: leBytes 4 v := by
          unfold VarInt.encode
          rw [if_neg (by omega), if_neg (by omega), if_pos (by omega)]
        have hle : leBytes 4 v = r.take 4 := by
          have hdl := leBytes_decodeLE (r.take 4) (fun x hx => hr x (List.take_subset _ _ hx))
          rw [hlen] at hdl
          rw [← hv]
          exact hdl
        rw [henc, hle, ← hrest, hfe]
        simp [List.take_append_drop]
      · rw [if_neg hfe] at h
        by_cases hfd : b = 253
        · rw [if_pos hfd] at h
          split_ifs at h with hlen2 hmin2
          simp only [Except.ok.injEq, Prod.mk.injEq] at h
          obtain ⟨hv, hrest⟩ := h
          have hlen : (r.take 2).length = 2 := by rw [List.length_take]; omega
          have hvlt : v < 2 ^ 16 := by
            have hd := decodeLE_lt (r.take 2) (fun x hx => hr x (List.take_subset _ _ hx))
            rw [hlen] at hd
            omega
          refine ⟨?_, by omega⟩
          have henc : VarInt.encode v = 0xFD :: leBytes 2 v := by
            unfold VarInt.encode
            rw [if_neg (by omega), if_pos (by omega)]
          have hle : leBytes 2 v = r.take 2 := by
            have hdl := leBytes_decodeLE (r.take 2) (fun x hx => hr x (List.take_subset _ _ hx))
            rw [hlen] at hdl
            rw [← hv]
            exact hdl
          rw [henc, hle, ← hrest, hfd]
          simp [List.take_append_drop]
        · rw [if_neg hfd] at h
          simp only [Except.ok.injEq, Prod.mk.injEq] at h
          obtain ⟨hv, hrest⟩ := h
          have henc : VarInt.encode v = [v] := by
            unfold VarInt.encode
            rw [if_pos (by omega)]
          rw [henc, ← hrest, ← hv]
          exact ⟨rfl, by omega⟩

theorem VarInt.decode_length (l : List Nat) (v : Nat) (rest : List Nat)
    (hb : ∀ b ∈ l, b < 256) (h : VarInt.decode l = .ok (v, rest)) :
    l.length = VarInt.len v + rest.length := by
  obtain ⟨henc, _⟩ := VarInt.encode_of_decode l v rest hb h
  rw [← henc, List.length_append, VarInt.length_encode]

/-! ### writeSlice lemmas -/

theorem writeSlice_split (X Y b : List Nat) (pos : Nat) (hpos : pos = X.length)
    (hb : b.length ≤ Y.length) :
    writeSlice (X ++ Y) pos b = X ++ b ++ Y.drop b.length := by
  subst hpos
  unfold writeSlice
  rw [List.take_left, List.drop_append]

theorem writeSlice_length (buf : List Nat) (pos : Nat) (b : List Nat)
    (h : pos + b.length ≤ buf.length) :
    (writeSlice buf pos b).length = buf.length := by
  simp only [writeSlice, List.length_append, List.length_take, List.length_drop]
  omega

/-! ### Layout view lemmas: contentSize, payloadBytes, idxBytes -/

theorem Witness.itemBytes_length (el : List Nat) :
    (Witness.itemBytes el).length = VarInt.len el.length + el.length := by
  simp [Witness.itemBytes, VarInt.length_encode]

theorem Witness.contentSize_nil : Witness.contentSize [] = 0 := rfl

theorem Witness.contentSize_cons (el : List Nat) (l : List (List Nat)) :
    Witness.contentSize (el :: l) =
      el.length + VarInt.len el.length + Witness.contentSize l := by
  simp [Witness.contentSize]

theorem Witness.contentSize_append (a b : List (List Nat)) :
    Witness.contentSize (a ++ b) = Witness.contentSize a + Witness.contentSize b := by
  simp [Witness.contentSize]

theorem Witness.contentSize_take_le (l : List (List Nat)) (i : Nat) :
    Witness.contentSize (l.take i) ≤ Witness.contentSize l := by
  conv_rhs => rw [← List.take_append_drop i l]
  rw [Witness.contentSize_append]
  omega

theorem Witness.length_le_contentSize (l : List (List Nat)) :
    l.length ≤ Witness.contentSize l := by
  induction l with
  | nil => exact Nat.le_refl 0
  | cons a t ih =>
    rw [List.length_cons, Witness.contentSize_cons]
    have := VarInt.len_pos a.length
    omega

theorem Witness.payloadBytes_nil : Witness.payloadBytes [] = [] := rfl

theorem Witness.payloadBytes_cons (el : List Nat) (l : List (List Nat)) :
    Witness.payloadBytes (el :: l) =
      Witness.itemBytes el ++ Witness.payloadBytes l := by
  simp [Witness.payloadBytes]

theorem Witness.payloadBytes_append (a b : List (List Nat)) :
    Witness.payloadBytes (a ++ b) =
      Witness.payloadBytes a ++ Witness.payloadBytes b := by
  simp [Witness.payloadBytes]

theorem Witness.payloadBytes_length (l : List (List Nat)) :
    (Witness.payloadBytes l).length = Witness.contentSize l := by
  induction l with
  | nil => rfl
  | cons el t ih =>
    rw [Witness.payloadBytes_cons, List.length_append, ih,
      Witness.itemBytes_length, Witness.contentSize_cons]
    omega

theorem Witness.offsetAt_append_of_le (p : List (List Nat)) (s : List (List Nat))
    (i : Nat) (h : i ≤ p.length) :
    Witness.offsetAt (p ++ s) i = Witness.offsetAt p i := by
  unfold Witness.offsetAt
  congr 1
  rw [List.take_append_eq_append_take]
  have : i - p.length = 0 := by omega
  rw [this]
  simp

theorem Witness.idxBytes_nil : Witness.idxBytes [] = [] := rfl

theorem Witness.idxBytes_snoc (l : List (List Nat)) (el : List Nat) :
    Witness.idxBytes (l ++ [el]) =
      Witness.idxBytes l ++ leBytes 4 (Witness.contentSize l) := by
  unfold Witness.idxBytes
  rw [List.length_append, List.length_singleton, List.range_succ, List.map_append,
    List.flatten_append]
  congr 1
  · congr 1
    apply List.map_congr_left
    intro i hi
    rw [List.mem_range] at hi
    rw [Witness.offsetAt_append_of_le l [el] i (by omega)]
  · rw [List.map_singleton, Witness.offsetAt_append_of_le l [el] l.length (by omega)]
    unfold Witness.offsetAt
    rw [List.take_length]
    simp

theorem Witness.idxBytes_length (l : List (List Nat)) :
    (Witness.idxBytes l).length = l.length * 4 := by
  induction l using List.reverseRecOn with
  | nil => rfl
  | append_singleton t el ih =>
    rw [Witness.idxBytes_snoc, List.length_append, ih, leBytes_length,
      List.length_append, List.length_singleton]
    ring

/-! ### The from_vec loop: step evaluation and characterization -/

theorem Witness.from_vecStep_eval (P I R : List Nat) (z i : Nat) (el : List Nat)
    (hz : VarInt.len el.length + el.length ≤ z) (hI : I.length = i * 4) :
    Witness.from_vecStep (P.length + z)
      (P ++ List.replicate z 0 ++ I ++ List.replicate 4 0 ++ R, P.length, i) el =
    (P ++ Witness.itemBytes el ++
        List.replicate (z - (VarInt.len el.length + el.length)) 0 ++ I ++
        leBytes 4 P.length ++ R,
      P.length + (VarInt.len el.length + el.length), i + 1) := by
  have hw := VarInt.length_encode el.length
  simp only [Witness.from_vecStep, encode_cursor, U32_SIZE]
  -- step 1: the index-entry write at position (P.length + z) + i * 4
  have hshape1 : P ++ List.replicate z 0 ++ I ++ List.replicate 4 0 ++ R =
      (P ++ List.replicate z 0 ++ I) ++ (List.replicate 4 0 ++ R) := by
    simp [List.append_assoc]
  rw [hshape1, writeSlice_split _ _ _ _
    (by simp only [List.length_append, List.length_replicate]; omega)
    (by simp only [List.length_append, List.length_replicate, leBytes_length]; omega),
    leBytes_length, drop_len_append 4 _ _ (List.length_replicate 4 0)]
  -- step 2: the varint write at position P.length
  have hshape2 : (P ++ List.replicate z 0 ++ I) ++ leBytes 4 P.length ++ R =
      P ++ (List.replicate z 0 ++ (I ++ (leBytes 4 P.length ++ R))) := by
    simp [List.append_assoc]
  rw [hshape2, writeSlice_split _ _ _ _ rfl
    (by simp only [List.length_append, List.length_replicate, hw]; omega)]
  rw [hw, List.drop_append_eq_append_drop, List.drop_replicate]
  simp only [List.length_replicate]
  have hz0 : VarInt.len el.length - z = 0 := by omega
  rw [hz0]
  simp only [List.drop_zero]
  -- step 3: the element write at position P.length + VarInt.len el.length
  have hshape3 : P ++ VarInt.encode el.length ++
      (List.replicate (z - VarInt.len el.length) 0 ++ (I ++ (leBytes 4 P.length ++ R))) =
      (P ++ VarInt.encode el.length) ++
        (List.replicate (z - VarInt.len el.length) 0 ++ (I ++ (leBytes 4 P.length ++ R))) := by
    simp [List.append_assoc]
  rw [hshape3, writeSlice_split _ _ _ _
    (by simp only [List.length_append, hw])
    (by simp only [List.length_append, List.length_replicate]; omega)]
  rw [List.drop_append_eq_append_drop, List.drop_replicate]
  simp only [List.length_replicate]
  have hz1 : el.length - (z - VarInt.len el.length) = 0 := by omega
  rw [hz1]
  simp only [List.drop_zero, Prod.mk.injEq]
  refine ⟨?_, by omega, trivial⟩
  simp only [Witness.itemBytes, List.append_assoc]
  have : z - VarInt.len el.length - el.length = z - (VarInt.len el.length + el.length) := by
    omega
  rw [this]

theorem Witness.idxBytesFrom_zero (l : List (List Nat)) :
    Witness.idxBytesFrom 0 l = Witness.idxBytes l := by
  unfold Witness.idxBytesFrom Witness.idxBytes
  congr 1
  apply List.map_congr_left
  intro i _
  rw [Nat.zero_add]

theorem Witness.idxBytesFrom_cons (c : Nat) (el : List Nat) (s : List (List Nat)) :
    Witness.idxBytesFrom c (el :: s) =
      leBytes 4 c ++
        Witness.idxBytesFrom (c + (VarInt.len el.length + el.length)) s := by
  unfold Witness.idxBytesFrom
  rw [List.length_cons, List.range_succ_eq_map, List.map_cons, List.flatten_cons,
    List.map_map]
  congr 1
  congr 1
  apply List.map_congr_left
  intro i _
  simp only [Function.comp, Nat.succ_eq_add_one]
  congr 1
  unfold Witness.offsetAt
  rw [List.take_succ_cons, Witness.contentSize_cons]
  omega

theorem Witness.from_vec_loop (s : List (List Nat)) :
    ∀ (P I : List Nat) (i : Nat), I.length = i * 4 →
    List.foldl (Witness.from_vecStep (P.length + Witness.contentSize s))
      (P ++ List.replicate (Witness.contentSize s) 0 ++ I ++
        List.replicate (s.length * 4) 0, P.length, i) s =
    (P ++ Witness.payloadBytes s ++ I ++ Witness.idxBytesFrom P.length s,
      P.length + Witness.contentSize s, i + s.length) := by
  induction s with
  | nil =>
    intro P I i hI
    simp [Witness.contentSize_nil, Witness.payloadBytes_nil, Witness.idxBytesFrom]
  | cons el s' ih =>
    intro P I i hI
    rw [List.foldl_cons]
    have hsplit : (el :: s').length * 4 = 4 + s'.length * 4 := by
      rw [List.length_cons]; omega
    rw [hsplit, List.replicate_add]
    simp only [← List.append_assoc]
    rw [Witness.from_vecStep_eval P I (List.replicate (s'.length * 4) 0)
      (Witness.contentSize (el :: s')) i el
      (by rw [Witness.contentSize_cons]; omega) hI]
    have hP'len : (P ++ Witness.itemBytes el).length =
        P.length + (VarInt.len el.length + el.length) := by
      rw [List.length_append, Witness.itemBytes_length]
    have hzz : Witness.contentSize (el :: s') - (VarInt.len el.length + el.length) =
        Witness.contentSize s' := by
      rw [Witness.contentSize_cons]; omega
    have hfn : P.length + Witness.contentSize (el :: s') =
        (P ++ Witness.itemBytes el).length + Witness.contentSize s' := by
      rw [hP'len, Witness.contentSize_cons]; omega
    rw [hzz, hfn, Witness.payloadBytes_cons, Witness.idxBytesFrom_cons, ← hP'len]
    have hidx : i + (el :: s').length = (i + 1) + s'.length := by
      rw [List.length_cons]; omega
    rw [hidx]
    have IH' := ih (P ++ Witness.itemBytes el) (I ++ leBytes 4 P.length) (i + 1)
      (by rw [List.length_append, hI, leBytes_length]; omega)
    simp only [List.append_assoc] at IH' ⊢
    exact IH'

theorem Witness.from_vec_spec (l : List (List Nat)) :
    Witness.from_vec l =
      { content := Witness.payloadBytes l ++ Witness.idxBytes l,
        witness_elements := l.length,
        indices_start := Witness.contentSize l } := by
  have h := Witness.from_vec_loop l [] [] 0 rfl
  simp only [List.length_nil, List.nil_append, List.append_nil, Nat.zero_add] at h
  rw [Witness.idxBytesFrom_zero] at h
  simp only [Witness.from_vec, U32_SIZE]
  rw [List.replicate_add, h]

theorem rotateRight_append_replicate (I : List Nat) (k extra : Nat) :
    rotateRight (I ++ List.replicate (k + extra) 0) k =
      List.replicate k 0 ++ I ++ List.replicate extra 0 := by
  unfold rotateRight
  have hlen : (I ++ List.replicate (k + extra) 0).length = I.length + (k + extra) := by
    simp
  rw [hlen]
  have hsub : I.length + (k + extra) - k = I.length + extra := by omega
  rw [hsub]
  rw [List.drop_append_eq_append_drop, List.take_append_eq_append_take]
  have h1 : I.drop (I.length + extra) = [] := by
    apply List.drop_eq_nil_of_le
    omega
  have h2 : I.take (I.length + extra) = I := by
    apply List.take_of_length_le
    omega
  rw [h1, h2, List.drop_replicate, List.take_replicate]
  have h3 : k + extra - (I.length + extra - I.length) = k := by omega
  have h5 : (I.length + extra - I.length) ⊓ (k + extra) = extra := by omega
  rw [h3, h5]
  simp [List.append_assoc]

theorem Witness.push_from_vec (l : List (List Nat)) (e : List Nat) :
    (Witness.from_vec l).push e = Witness.from_vec (l ++ [e]) := by
  rw [Witness.from_vec_spec l, Witness.from_vec_spec (l ++ [e])]
  simp only [Witness.push, encode_cursor, U32_SIZE, Nat.add_sub_cancel]
  have hP := Witness.payloadBytes_length l
  have hI := Witness.idxBytes_length l
  have hassoc1 : Witness.payloadBytes l ++ Witness.idxBytes l ++
      List.replicate (VarInt.len e.length + e.length + 4) 0 =
      Witness.payloadBytes l ++ (Witness.idxBytes l ++
        List.replicate (VarInt.len e.length + e.length + 4) 0) := by
    simp [List.append_assoc]
  rw [hassoc1, take_len_append _ _ _ hP, drop_len_append _ _ _ hP,
    rotateRight_append_replicate]
  simp only [← List.append_assoc]
  rw [writeSlice_split
    (Witness.payloadBytes l ++ List.replicate (VarInt.len e.length + e.length) 0 ++
      Witness.idxBytes l)
    (List.replicate 4 0) (leBytes 4 (Witness.contentSize l)) _
    (by simp only [List.length_append, List.length_replicate, hP, hI]; try omega)
    (by simp [leBytes_length])]
  rw [leBytes_length, List.drop_replicate]
  simp only [Nat.sub_self, List.replicate_zero, List.append_nil]
  simp only [List.append_assoc]
  rw [writeSlice_split (Witness.payloadBytes l) _ (VarInt.encode e.length) _
    hP.symm
    (by simp only [List.length_append, List.length_replicate, VarInt.length_encode,
      leBytes_length]; omega)]
  rw [VarInt.length_encode, List.drop_append_eq_append_drop, List.drop_replicate,
    List.length_replicate]
  have hs1 : VarInt.len e.length + e.length - VarInt.len e.length = e.length := by omega
  have hs2 : VarInt.len e.length - (VarInt.len e.length + e.length) = 0 := by omega
  rw [hs1, hs2, List.drop_zero]
  rw [writeSlice_split (Witness.payloadBytes l ++ VarInt.encode e.length) _ e _
    (by rw [List.length_append, hP, VarInt.length_encode])
    (by simp only [List.length_append, List.length_replicate, leBytes_length]; omega)]
  rw [List.drop_append_eq_append_drop, List.drop_replicate, List.length_replicate]
  simp only [Nat.sub_self, List.replicate_zero, List.drop_zero, List.nil_append]
  rw [Witness.payloadBytes_append, Witness.idxBytes_snoc]
  simp only [Witness.payloadBytes_cons, Witness.payloadBytes_nil, Witness.itemBytes,
    List.append_nil, Witness.mk.injEq]
  refine ⟨by simp [List.append_assoc], by simp, ?_⟩
  rw [Witness.contentSize_append, Witness.contentSize_cons, Witness.contentSize_nil]
  omega

theorem Witness.from_vec_nil : Witness.from_vec [] = Witness.new := rfl

theorem Witness.clear_eq (w : Witness) : w.clear = Witness.from_vec [] := rfl

theorem Witness.push_bitcoin_signature_eq (w : Witness) (sig : List Nat) (ht : Nat) :
    w.push_bitcoin_signature sig ht = w.push (sig.take 72 ++ [ht % 256]) := rfl

/-! ### Random access on the canonical layout -/

theorem Witness.idxBytesFrom_get (l : List (List Nat)) :
    ∀ (c i : Nat), i < l.length →
    ((Witness.idxBytesFrom c l).drop (i * 4)).take 4 =
      leBytes 4 (c + Witness.offsetAt l i) := by
  induction l with
  | nil => intro c i h; simp at h
  | cons el s ih =>
    intro c i h
    rw [Witness.idxBytesFrom_cons]
    match i with
    | 0 =>
      rw [Nat.zero_mul, List.drop_zero,
        take_len_append 4 _ _ (leBytes_length 4 c)]
      rfl
    | i + 1 =>
      have hm : (i + 1) * 4 = 4 + i * 4 := by omega
      rw [hm, List.drop_append_eq_append_drop, leBytes_length,
        List.drop_eq_nil_of_le (by rw [leBytes_length]; omega)]
      have hs : 4 + i * 4 - 4 = i * 4 := by omega
      rw [hs, List.nil_append, ih _ i (by simpa using h)]
      congr 1
      unfold Witness.offsetAt
      rw [List.take_succ_cons, Witness.contentSize_cons]
      omega

theorem Witness.idxBytes_get (l : List (List Nat)) (i : Nat) (h : i < l.length) :
    ((Witness.idxBytes l).drop (i * 4)).take 4 = leBytes 4 (Witness.offsetAt l i) := by
  rw [← Witness.idxBytesFrom_zero, Witness.idxBytesFrom_get l 0 i h, Nat.zero_add]

theorem Witness.decode_cursor_layout (l : List (List Nat)) (i : Nat)
    (hno : Witness.contentSize l + i * U32_SIZE + U32_SIZE < 2 ^ 64) :
    decode_cursor (Witness.payloadBytes l ++ Witness.idxBytes l)
      (Witness.contentSize l) i =
      if i < l.length then some (Witness.offsetAt l i % 2 ^ 32) else none := by
  unfold decode_cursor
  simp only
  rw [show (Witness.contentSize l + i * U32_SIZE) % 2 ^ 64 =
      Witness.contentSize l + i * U32_SIZE from Nat.mod_eq_of_lt (by omega),
    show (Witness.contentSize l + i * U32_SIZE + U32_SIZE) % 2 ^ 64 =
      Witness.contentSize l + i * U32_SIZE + U32_SIZE from Nat.mod_eq_of_lt hno]
  have hlen : (Witness.payloadBytes l ++ Witness.idxBytes l).length =
      Witness.contentSize l + l.length * 4 := by
    rw [List.length_append, Witness.payloadBytes_length, Witness.idxBytes_length]
  by_cases h : i < l.length
  · rw [if_neg (by rw [hlen]; simp only [U32_SIZE]; omega), if_pos h]
    congr 1
    have hdrop : (Witness.payloadBytes l ++ Witness.idxBytes l).drop
        (Witness.contentSize l + i * U32_SIZE) =
        (Witness.idxBytes l).drop (i * 4) := by
      rw [List.drop_append_eq_append_drop,
        List.drop_eq_nil_of_le (by rw [Witness.payloadBytes_length]; omega),
        List.nil_append, Witness.payloadBytes_length]
      congr 1
      simp only [U32_SIZE]
      omega
    rw [hdrop]
    show decodeLE (((Witness.idxBytes l).drop (i * 4)).take 4) = _
    rw [Witness.idxBytes_get l i h, decodeLE_leBytes]
    norm_num
  · rw [if_pos (by rw [hlen]; simp only [U32_SIZE]; omega), if_neg h]

theorem Witness.offsetAt_add_item_le (l : List (List Nat)) :
    ∀ i, i < l.length →
    Witness.offsetAt l i +
      (VarInt.len (l.getD i []).length + (l.getD i []).length) ≤
      Witness.contentSize l := by
  induction l with
  | nil => intro i h; simp at h
  | cons el s ih =>
    intro i h
    match i with
    | 0 =>
      simp only [List.getD_cons_zero, Witness.contentSize_cons]
      unfold Witness.offsetAt
      rw [List.take_zero, Witness.contentSize_nil]
      omega
    | i + 1 =>
      have hih := ih i (by simpa using h)
      simp only [List.getD_cons_succ, Witness.contentSize_cons]
      unfold Witness.offsetAt
      rw [List.take_succ_cons, Witness.contentSize_cons]
      unfold Witness.offsetAt at hih
      omega

theorem Witness.offsetAt_le (l : List (List Nat)) (i : Nat) :
    Witness.offsetAt l i ≤ Witness.contentSize l :=
  Witness.contentSize_take_le l i

theorem Witness.getD_length_le (l : List (List Nat)) (i : Nat) (h : i < l.length) :
    (l.getD i []).length ≤ Witness.contentSize l := by
  have := Witness.offsetAt_add_item_le l i h
  omega

theorem Witness.payloadBytes_drop_offset (l : List (List Nat)) :
    ∀ i, i < l.length →
    (Witness.payloadBytes l).drop (Witness.offsetAt l i) =
      Witness.itemBytes (l.getD i []) ++ Witness.payloadBytes (l.drop (i + 1)) := by
  induction l with
  | nil => intro i h; simp at h
  | cons el s ih =>
    intro i h
    match i with
    | 0 =>
      unfold Witness.offsetAt
      rw [List.take_zero, Witness.contentSize_nil, List.drop_zero,
        Witness.payloadBytes_cons]
      simp
    | i + 1 =>
      unfold Witness.offsetAt
      rw [List.take_succ_cons, Witness.contentSize_cons,
        Witness.payloadBytes_cons, List.drop_append_eq_append_drop,
        Witness.itemBytes_length,
        List.drop_eq_nil_of_le (by rw [Witness.itemBytes_length]; omega),
        List.nil_append]
      have hs : el.length + VarInt.len el.length + Witness.contentSize (s.take i) -
          (VarInt.len el.length + el.length) = Witness.contentSize (s.take i) := by
        omega
      rw [hs]
      have := ih i (by simpa using h)
      unfold Witness.offsetAt at this
      rw [this]
      simp

theorem Witness.element_at_from_vec (l : List (List Nat)) (i : Nat)
    (hi : i < l.length) (hlen : (l.getD i []).length < 2 ^ 64) :
    (Witness.from_vec l).element_at (Witness.offsetAt l i) = .found (l.getD i []) := by
  have hoffle := Witness.offsetAt_le l i
  have hitem := Witness.offsetAt_add_item_le l i hi
  rw [Witness.from_vec_spec]
  unfold Witness.element_at
  simp only
  have hclen : (Witness.payloadBytes l ++ Witness.idxBytes l).length =
      Witness.contentSize l + l.length * 4 := by
    rw [List.length_append, Witness.payloadBytes_length, Witness.idxBytes_length]
  rw [if_neg (by rw [hclen]; omega)]
  have hdrop : (Witness.payloadBytes l ++ Witness.idxBytes l).drop
      (Witness.offsetAt l i) =
      VarInt.encode (l.getD i []).length ++ ((l.getD i []) ++
        (Witness.payloadBytes (l.drop (i + 1)) ++ Witness.idxBytes l)) := by
    rw [List.drop_append_eq_append_drop, Witness.payloadBytes_drop_offset l i hi,
      Witness.payloadBytes_length]
    have h0 : Witness.offsetAt l i - Witness.contentSize l = 0 := by omega
    rw [h0, List.drop_zero]
    simp [Witness.itemBytes, List.append_assoc]
  rw [hdrop, VarInt.decode_encode _ hlen]
  simp only
  rw [if_neg (by rw [hclen]; omega)]
  have hdrop2 : (Witness.payloadBytes l ++ Witness.idxBytes l).drop
      (Witness.offsetAt l i + VarInt.len (l.getD i []).length) =
      (l.getD i []) ++
        (Witness.payloadBytes (l.drop (i + 1)) ++ Witness.idxBytes l) := by
    rw [← List.drop_drop, hdrop,
      drop_len_append _ _ _ (VarInt.length_encode (l.getD i []).length)]
  rw [hdrop2, take_len_append _ _ _ rfl]

theorem Witness.nth_from_vec (l : List (List Nat)) (i : Nat) (hi : i < l.length)
    (ho : Witness.offsetAt l i < 2 ^ 32) (hlen : (l.getD i []).length < 2 ^ 64)
    (hno : Witness.contentSize l + i * U32_SIZE + U32_SIZE < 2 ^ 64) :
    (Witness.from_vec l).nth i = .found (l.getD i []) := by
  unfold Witness.nth
  rw [Witness.from_vec_spec]
  simp only
  rw [Witness.decode_cursor_layout l i hno, if_pos hi, Nat.mod_eq_of_lt ho]
  simp only
  rw [← Witness.from_vec_spec]
  exact Witness.element_at_from_vec l i hi hlen

theorem Witness.nth_from_vec_ge (l : List (List Nat)) (i : Nat) (hi : l.length ≤ i)
    (hno : Witness.contentSize l + i * U32_SIZE + U32_SIZE < 2 ^ 64) :
    (Witness.from_vec l).nth i = .absent := by
  unfold Witness.nth
  rw [Witness.from_vec_spec]
  simp only
  rw [Witness.decode_cursor_layout l i hno, if_neg (by omega)]

theorem Witness.nth_from_vec_bounded (l : List (List Nat)) (i : Nat)
    (hcs : Witness.contentSize l < 2 ^ 32) (hi : i < l.length) :
    (Witness.from_vec l).nth i = .found (l.getD i []) := by
  have h32 : (2:Nat) ^ 32 < 2 ^ 64 := by norm_num
  have h1 := Witness.offsetAt_le l i
  have h2 := Witness.getD_length_le l i hi
  have hll := Witness.length_le_contentSize l
  exact Witness.nth_from_vec l i hi (by omega) (by omega)
    (by simp only [U32_SIZE]; omega)

theorem Witness.iterCollect_from_vec (l : List (List Nat))
    (hoff : ∀ i, i < l.length → Witness.offsetAt l i < 2 ^ 32)
    (hlen : ∀ i, i < l.length → (l.getD i []).length < 2 ^ 64) :
    ∀ d k, d = l.length - k → k ≤ l.length →
    iterCollect (Witness.payloadBytes l ++ Witness.idxBytes l)
      (Witness.contentSize l) k = some (l.drop k) := by
  have hclen : (Witness.payloadBytes l ++ Witness.idxBytes l).length =
      Witness.contentSize l + l.length * 4 := by
    rw [List.length_append, Witness.payloadBytes_length, Witness.idxBytes_length]
  intro d
  induction d with
  | zero =>
    intro k hd hk
    have hkk : k = l.length := by omega
    subst hkk
    rw [iterCollect, dif_pos (by rw [hclen]; simp only [U32_SIZE]; omega),
      List.drop_length]
  | succ d ih =>
    intro k hd hk
    have hklt : k < l.length := by omega
    have h32 : (2:Nat) ^ 32 < 2 ^ 64 := by norm_num
    have hoffle := Witness.offsetAt_le l k
    have hitem := Witness.offsetAt_add_item_le l k hklt
    have hgl := Witness.getD_length_le l k hklt
    rw [iterCollect, dif_neg (by rw [hclen]; simp only [U32_SIZE]; omega)]
    have hidx : decodeLE (((Witness.payloadBytes l ++ Witness.idxBytes l).drop
        (Witness.contentSize l + k * U32_SIZE)).take U32_SIZE) =
        Witness.offsetAt l k := by
      have hdropi : (Witness.payloadBytes l ++ Witness.idxBytes l).drop
          (Witness.contentSize l + k * U32_SIZE) =
          (Witness.idxBytes l).drop (k * 4) := by
        rw [List.drop_append_eq_append_drop,
          List.drop_eq_nil_of_le (by rw [Witness.payloadBytes_length]; omega),
          List.nil_append, Witness.payloadBytes_length]
        congr 1
        simp only [U32_SIZE]
        omega
      rw [hdropi]
      show decodeLE (((Witness.idxBytes l).drop (k * 4)).take 4) = _
      rw [Witness.idxBytes_get l k hklt, decodeLE_leBytes]
      have h256 : (256:Nat) ^ 4 = 2 ^ 32 := by norm_num
      rw [h256, Nat.mod_eq_of_lt (hoff k hklt)]
    rw [hidx]
    rw [if_neg (by rw [hclen]; omega)]
    have hdrop : (Witness.payloadBytes l ++ Witness.idxBytes l).drop
        (Witness.offsetAt l k) =
        VarInt.encode (l.getD k []).length ++ ((l.getD k []) ++
          (Witness.payloadBytes (l.drop (k + 1)) ++ Witness.idxBytes l)) := by
      rw [List.drop_append_eq_append_drop, Witness.payloadBytes_drop_offset l k hklt,
        Witness.payloadBytes_length]
      have h0 : Witness.offsetAt l k - Witness.contentSize l = 0 := by omega
      rw [h0, List.drop_zero]
      simp [Witness.itemBytes, List.append_assoc]
    rw [hdrop, VarInt.decode_encode _ (hlen k hklt)]
    simp only
    rw [if_neg (by rw [hclen]; omega)]
    rw [ih (k + 1) (by omega) (by omega)]
    simp only
    have hdrop2 : (Witness.payloadBytes l ++ Witness.idxBytes l).drop
        (Witness.offsetAt l k + VarInt.len (l.getD k []).length) =
        (l.getD k []) ++
          (Witness.payloadBytes (l.drop (k + 1)) ++ Witness.idxBytes l) := by
      rw [← List.drop_drop, hdrop,
        drop_len_append _ _ _ (VarInt.length_encode (l.getD k []).length)]
    rw [hdrop2, take_len_append _ _ _ rfl]
    congr 1
    rw [List.drop_eq_getElem_cons hklt]
    congr 1
    rw [List.getD_eq_getElem l [] hklt]

theorem Witness.to_vec_from_vec (l : List (List Nat))
    (hcs : Witness.contentSize l < 2 ^ 32) :
    (Witness.from_vec l).to_vec = some l := by
  unfold Witness.to_vec
  rw [Witness.from_vec_spec]
  simp only
  rw [Witness.iterCollect_from_vec l
      (fun i _ => lt_of_le_of_lt (Witness.offsetAt_le l i) hcs)
      (fun i hi => by have := Witness.getD_length_le l i hi; omega)
      l.length 0 (by omega) (by omega),
    List.drop_zero]

/-! ### Resize and writeSlice bookkeeping for the decode loop -/

theorem growLenFuel_ge (fuel : Nat) : ∀ n r : Nat, n ≤ growLenFuel fuel n r := by
  induction fuel with
  | zero => intro n r; exact Nat.le_refl n
  | succ fuel ih =>
    intro n r
    rw [growLenFuel]
    split_ifs with h
    · exact le_trans (by omega) (ih (2 * n) r)
    · exact Nat.le_refl n

theorem growLenFuel_gt (fuel : Nat) : ∀ n r : Nat, 0 < n → r + 1 ≤ n + fuel →
    r < growLenFuel fuel n r := by
  induction fuel with
  | zero =>
    intro n r hn hf
    rw [growLenFuel]
    omega
  | succ fuel ih =>
    intro n r hn hf
    rw [growLenFuel]
    split_ifs with h
    · exact ih (2 * n) r (by omega) (by omega)
    · omega

theorem resize_length_gt (vec : List Nat) (r : Nat) :
    r < (resize_if_needed vec r).length := by
  unfold resize_if_needed
  split_ifs with h
  · have hge := growLenFuel_ge (r + 1) (max vec.length 1) r
    have hgt := growLenFuel_gt (r + 1) (max vec.length 1) r (by omega) (by omega)
    simp only [List.length_append, List.length_take, List.length_replicate]
    omega
  · omega

theorem resize_take_init (vec : List Nat) (r k : Nat) (hk : k ≤ vec.length) :
    (resize_if_needed vec r).take k = vec.take k := by
  unfold resize_if_needed
  split_ifs with h
  · have hge := growLenFuel_ge (r + 1) (max vec.length 1) r
    rw [List.take_append_eq_append_take, List.take_take]
    have h1 : k ⊓ growLenFuel (r + 1) (max vec.length 1) r = k := by omega
    have h2 : k - (vec.take (growLenFuel (r + 1) (max vec.length 1) r)).length = 0 := by
      rw [List.length_take]
      omega
    rw [h1, h2, List.take_zero, List.append_nil]
  · rfl

theorem writeSlice_take_full (buf b : List Nat) (pos : Nat)
    (h : pos + b.length ≤ buf.length) :
    (writeSlice buf pos b).take (pos + b.length) = buf.take pos ++ b := by
  unfold writeSlice
  have hX : (buf.take pos ++ b).length = pos + b.length := by
    rw [List.length_append, List.length_take]
    omega
  rw [take_len_append _ _ _ hX]

theorem Witness.decodeElems_ok (n : Nat) :
    ∀ (r : List Nat) (cursor : Nat) (content indices c' : List Nat) (cur' : Nat)
      (idx' rest : List Nat),
    cursor ≤ content.length →
    Witness.decodeElems r n cursor content indices = .ok (c', cur', idx', rest) →
    ∃ els : List (List Nat),
      els.length = n ∧
      cur' = cursor + Witness.contentSize els ∧
      cur' ≤ c'.length ∧
      c'.take cur' = content.take cursor ++ Witness.payloadBytes els ∧
      idx' = indices ++ Witness.idxBytesFrom cursor els ∧
      (n ≠ 0 → cur' ≤ MAX_VEC_SIZE) ∧
      ((∀ b ∈ r, b < 256) → Witness.payloadBytes els ++ rest = r) := by
  induction n with
  | zero =>
    intro r cursor content indices c' cur' idx' rest hcur h
    simp only [Witness.decodeElems, Except.ok.injEq, Prod.mk.injEq] at h
    obtain ⟨rfl, rfl, rfl, rfl⟩ := h
    refine ⟨[], rfl, rfl, hcur, by simp [Witness.payloadBytes_nil],
      by simp [Witness.idxBytesFrom], by omega, by simp [Witness.payloadBytes_nil]⟩
  | succ n' ih =>
    intro r cursor content indices c' cur' idx' rest hcur h
    cases hv : VarInt.decode r with
    | error e =>
      simp [Witness.decodeElems, hv] at h
    | ok val =>
      obtain ⟨sz, r₁⟩ := val
      simp only [Witness.decodeElems, hv, checked_add] at h
      by_cases h1 : USIZE_MAX < cursor + sz
      · rw [if_pos h1] at h
        simp at h
      rw [if_neg h1] at h
      simp only at h
      by_cases h2 : USIZE_MAX < cursor + sz + VarInt.len sz
      · rw [if_pos h2] at h
        simp at h
      rw [if_neg h2] at h
      simp only at h
      by_cases h3 : MAX_VEC_SIZE < cursor + sz + VarInt.len sz
      · rw [if_pos h3] at h
        simp at h
      rw [if_neg h3] at h
      by_cases h4 : r₁.length < sz
      · rw [if_pos h4] at h
        simp at h
      rw [if_neg h4] at h
      have hdlen : (r₁.take sz).length = sz := by
        rw [List.length_take]
        omega
      have hr2 := resize_length_gt content (cursor + sz + VarInt.len sz)
      have hlen3 : (writeSlice (resize_if_needed content (cursor + sz + VarInt.len sz))
          cursor (VarInt.encode sz)).length =
          (resize_if_needed content (cursor + sz + VarInt.len sz)).length := by
        apply writeSlice_length
        rw [VarInt.length_encode]
        omega
      have hlen4 : (writeSlice (writeSlice
          (resize_if_needed content (cursor + sz + VarInt.len sz))
          cursor (VarInt.encode sz)) (cursor + VarInt.len sz) (r₁.take sz)).length =
          (resize_if_needed content (cursor + sz + VarInt.len sz)).length := by
        rw [writeSlice_length, hlen3]
        rw [hdlen, hlen3]
        omega
      obtain ⟨els', hlen', hcur'', hle', htake', hidx'', hmax', hbytes'⟩ :=
        ih (r₁.drop sz) (cursor + VarInt.len sz + sz) _ (indices ++ leBytes 4 cursor)
          c' cur' idx' rest (by rw [hlen4]; omega) h
      have htake4 : (writeSlice (writeSlice
          (resize_if_needed content (cursor + sz + VarInt.len sz))
          cursor (VarInt.encode sz)) (cursor + VarInt.len sz) (r₁.take sz)).take
          (cursor + VarInt.len sz + sz) =
          content.take cursor ++ VarInt.encode sz ++ r₁.take sz := by
        have e1 : cursor + VarInt.len sz + sz =
            (cursor + VarInt.len sz) + (r₁.take sz).length := by
          rw [hdlen]
        rw [e1, writeSlice_take_full _ _ _ (by rw [hdlen, hlen3]; omega)]
        congr 1
        have e2 : cursor + VarInt.len sz = cursor + (VarInt.encode sz).length := by
          rw [VarInt.length_encode]
        rw [e2, writeSlice_take_full _ _ _ (by rw [VarInt.length_encode]; omega)]
        rw [resize_take_init _ _ _ hcur]
      refine ⟨r₁.take sz :: els', ?_, ?_, ?_, ?_, ?_, ?_, ?_⟩
      · rw [List.length_cons, hlen']
      · rw [hcur'', Witness.contentSize_cons, hdlen]
        omega
      · exact hle'
      · rw [htake', htake4, Witness.payloadBytes_cons, Witness.itemBytes, hdlen]
        simp [List.append_assoc]
      · rw [hidx'', Witness.idxBytesFrom_cons]
        have e3 : cursor + (VarInt.len (r₁.take sz).length + (r₁.take sz).length) =
            cursor + VarInt.len sz + sz := by
          rw [hdlen]
          omega
        rw [e3]
        simp [List.append_assoc]
      · intro _
        by_cases hn0 : n' = 0
        · have hels : els' = [] := by
            rw [hn0] at hlen'
            exact List.length_eq_zero.mp hlen'
          rw [hels, Witness.contentSize_nil] at hcur''
          omega
        · exact hmax' hn0
      · intro hb
        obtain ⟨henc, hszlt⟩ := VarInt.encode_of_decode r sz r₁ hb hv
        have hb1 : ∀ b ∈ r₁, b < 256 := by
          intro b hbm
          apply hb
          rw [← henc]
          exact List.mem_append_right _ hbm
        have hb2 : ∀ b ∈ r₁.drop sz, b < 256 := fun b hbm =>
          hb1 b (List.drop_subset _ _ hbm)
        have hrec := hbytes' hb2
        rw [Witness.payloadBytes_cons, Witness.itemBytes, hdlen, ← henc]
        simp only [List.append_assoc]
        congr 1
        conv_rhs => rw [← List.take_append_drop sz r₁]
        rw [← hrec]

theorem Witness.consensus_encode_from_vec (l : List (List Nat)) :
    Witness.consensus_encode (Witness.from_vec l) =
      (VarInt.encode l.length ++ Witness.payloadBytes l,
        Witness.contentSize l + VarInt.len l.length) := by
  rw [Witness.from_vec_spec]
  unfold Witness.consensus_encode
  simp only
  have hlen : (Witness.payloadBytes l ++ Witness.idxBytes l).length -
      l.length * U32_SIZE = Witness.contentSize l := by
    rw [List.length_append, Witness.payloadBytes_length, Witness.idxBytes_length]
    simp only [U32_SIZE]
    omega
  rw [hlen, take_len_append _ _ _ (Witness.payloadBytes_length l)]

theorem Witness.consensus_decode_ok (B : List Nat) (w : Witness) (rest : List Nat)
    (h : Witness.consensus_decode B = .ok (w, rest)) :
    ∃ els, w = Witness.from_vec els ∧ Witness.contentSize els ≤ MAX_VEC_SIZE ∧
      ((∀ b ∈ B, b < 256) → (Witness.consensus_encode w).1 ++ rest = B) := by
  unfold Witness.consensus_decode at h
  cases hv : VarInt.decode B with
  | error e =>
    rw [hv] at h
    exact Except.noConfusion h
  | ok val =>
    obtain ⟨ne, r₀⟩ := val
    rw [hv] at h
    simp only at h
    by_cases hne : ne = 0
    · rw [if_pos hne] at h
      simp only [Except.ok.injEq, Prod.mk.injEq] at h
      obtain ⟨rfl, rfl⟩ := h
      refine ⟨[], Witness.from_vec_nil.symm, by simp [Witness.contentSize_nil, MAX_VEC_SIZE], ?_⟩
      intro hb
      obtain ⟨henc, _⟩ := VarInt.encode_of_decode B ne r₀ hb hv
      subst hne
      rw [← henc]
      rfl
    · rw [if_neg hne] at h
      cases hd : Witness.decodeElems r₀ ne 0 (List.replicate 128 0) [] with
      | error e =>
        rw [hd] at h
        exact Except.noConfusion h
      | ok q =>
        obtain ⟨content, cursor, indices, rest'⟩ := q
        rw [hd] at h
        simp only [Except.ok.injEq, Prod.mk.injEq] at h
        obtain ⟨rfl, rfl⟩ := h
        obtain ⟨els, hlen, hcur, _, htake, hidx, hmax, hbytes⟩ :=
          Witness.decodeElems_ok ne r₀ 0 (List.replicate 128 0) [] content cursor
            indices rest' (by simp) hd
        rw [List.take_zero, List.nil_append] at htake
        rw [List.nil_append] at hidx
        rw [Nat.zero_add] at hcur
        refine ⟨els, ?_, by have := hmax hne; omega, ?_⟩
        · rw [Witness.from_vec_spec, htake, hidx, Witness.idxBytesFrom_zero, hlen, hcur]
        · intro hb
          obtain ⟨henc, _⟩ := VarInt.encode_of_decode B ne r₀ hb hv
          have hb0 : ∀ b ∈ r₀, b < 256 := by
            intro b hbm
            apply hb
            rw [← henc]
            exact List.mem_append_right _ hbm
          have hpay := hbytes hb0
          have hw : ({ content := content.take cursor ++ indices,
                       witness_elements := ne,
                       indices_start := cursor } : Witness) =
              Witness.from_vec els := by
            rw [Witness.from_vec_spec, htake, hidx, Witness.idxBytesFrom_zero, hlen, hcur]
          rw [hw, Witness.consensus_encode_from_vec]
          simp only
          rw [hlen, ← henc, List.append_assoc, hpay]

/-! ### Reachability: every operation sequence yields a canonical layout -/

theorem applyOp_from_vec (l : List (List Nat)) (op : Op) :
    ∃ l', applyOp (Witness.from_vec l) op = Witness.from_vec l' := by
  cases op with
  | newStack =>
    refine ⟨[], ?_⟩
    simp only [applyOp]
    exact Witness.from_vec_nil.symm
  | fromVec v =>
    refine ⟨v, ?_⟩
    simp only [applyOp]
  | decode bytes =>
    simp only [applyOp]
    cases hres : Witness.consensus_decode bytes with
    | error e => exact ⟨l, rfl⟩
    | ok q =>
      obtain ⟨w', rest⟩ := q
      obtain ⟨els, hw, _, _⟩ := Witness.consensus_decode_ok bytes w' rest hres
      exact ⟨els, hw⟩
  | push el =>
    refine ⟨l ++ [el], ?_⟩
    simp only [applyOp]
    exact Witness.push_from_vec l el
  | pushSig sig ht =>
    refine ⟨l ++ [sig.take 72 ++ [ht % 256]], ?_⟩
    simp only [applyOp]
    rw [Witness.push_bitcoin_signature_eq, Witness.push_from_vec]
  | clear =>
    refine ⟨[], ?_⟩
    simp only [applyOp]
    exact Witness.clear_eq _

theorem applyOps_from_vec (ops : List Op) :
    ∃ l, applyOps ops = Witness.from_vec l := by
  suffices h : ∀ (w : Witness), (∃ l, w = Witness.from_vec l) →
      ∃ l, ops.foldl applyOp w = Witness.from_vec l by
    exact h Witness.new ⟨[], Witness.from_vec_nil.symm⟩
  induction ops with
  | nil => intro w hw; exact hw
  | cons op t ih =>
    intro w hw
    obtain ⟨l, rfl⟩ := hw
    rw [List.foldl_cons]
    exact ih _ (applyOp_from_vec l op)

/-! ### The stated invariant on canonical layouts -/

theorem entryOk_from_vec (l : List (List Nat)) (hcs : Witness.contentSize l < 2 ^ 32)
    (i : Nat) (hi : i < l.length) : entryOk (Witness.from_vec l) i = true := by
  have h32 : (2:Nat) ^ 32 < 2 ^ 64 := by norm_num
  have hoffle := Witness.offsetAt_le l i
  have hitem := Witness.offsetAt_add_item_le l i hi
  have hgl := Witness.getD_length_le l i hi
  unfold entryOk
  rw [Witness.from_vec_spec]
  simp only
  have hll := Witness.length_le_contentSize l
  rw [Witness.decode_cursor_layout l i (by simp only [U32_SIZE]; omega),
    if_pos hi, Nat.mod_eq_of_lt (by omega)]
  simp only
  have hdrop : (Witness.payloadBytes l ++ Witness.idxBytes l).drop
      (Witness.offsetAt l i) =
      VarInt.encode (l.getD i []).length ++ ((l.getD i []) ++
        (Witness.payloadBytes (l.drop (i + 1)) ++ Witness.idxBytes l)) := by
    rw [List.drop_append_eq_append_drop, Witness.payloadBytes_drop_offset l i hi,
      Witness.payloadBytes_length]
    have h0 : Witness.offsetAt l i - Witness.contentSize l = 0 := by omega
    rw [h0, List.drop_zero]
    simp [Witness.itemBytes, List.append_assoc]
  rw [hdrop, VarInt.decode_encode _ (by omega)]
  simp only [decide_eq_true_eq]
  omega

theorem invariantHolds_from_vec (l : List (List Nat))
    (hcs : Witness.contentSize l < 2 ^ 32) :
    invariantHolds (Witness.from_vec l) = true := by
  unfold invariantHolds
  rw [Witness.from_vec_spec]
  simp only [Bool.and_eq_true, decide_eq_true_eq, List.all_eq_true]
  have hclen : (Witness.payloadBytes l ++ Witness.idxBytes l).length =
      Witness.contentSize l + l.length * 4 := by
    rw [List.length_append, Witness.payloadBytes_length, Witness.idxBytes_length]
  refine ⟨⟨by rw [hclen]; omega, by rw [hclen]; simp only [U32_SIZE]; omega⟩, ?_⟩
  intro i hi
  rw [List.mem_range] at hi
  have := entryOk_from_vec l hcs i hi
  rw [Witness.from_vec_spec] at this
  exact this

/-! ### The wrapped-index counterexample layout -/

theorem bigElem_length : bigElem.length = 2 ^ 32 - 3 := by
  unfold bigElem
  exact List.length_replicate _ _

theorem bigElem_varint_len : VarInt.len (2 ^ 32 - 3) = 5 := by decide

theorem bigVec_csA : Witness.contentSize [bigElem] = 2 ^ 32 + 2 := by
  rw [Witness.contentSize_cons, Witness.contentSize_nil, bigElem_length,
    bigElem_varint_len]
  have : (2:Nat) ^ 32 = 4294967296 := by norm_num
  omega

theorem bigVec_contentSize : Witness.contentSize bigVec = 2 ^ 32 + 3 := by
  unfold bigVec
  rw [Witness.contentSize_cons, Witness.contentSize_cons, Witness.contentSize_nil,
    bigElem_length, bigElem_varint_len, List.length_nil]
  have hv0 : VarInt.len 0 = 1 := by decide
  rw [hv0]
  have : (2:Nat) ^ 32 = 4294967296 := by norm_num
  omega

theorem bigVec_payload : Witness.payloadBytes bigVec =
    [254, 253, 255, 255, 255] ++ (bigElem ++ [0]) := by
  have h1 : Witness.itemBytes bigElem = [254, 253, 255, 255, 255] ++ bigElem := by
    unfold Witness.itemBytes bigElem
    rw [List.length_replicate]
    congr 1
  have h2 : Witness.itemBytes ([] : List Nat) = [0] := rfl
  unfold bigVec
  rw [Witness.payloadBytes_cons, Witness.payloadBytes_cons, Witness.payloadBytes_nil,
    h1, h2, List.append_nil, List.append_assoc]

theorem bigVec_offset1 : Witness.offsetAt bigVec 1 = 2 ^ 32 + 2 := by
  unfold Witness.offsetAt
  have ht : bigVec.take 1 = [bigElem] := rfl
  rw [ht, bigVec_csA]

theorem bigVec_drop2 : (Witness.payloadBytes bigVec ++ Witness.idxBytes bigVec).drop 2 =
    255 :: ([255, 255] ++ (bigElem ++ ([0] ++ Witness.idxBytes bigVec))) := by
  rw [bigVec_payload, List.append_assoc, List.append_assoc]
  have hsplit : ([254, 253, 255, 255, 255] : List Nat) ++
      (bigElem ++ ([0] ++ Witness.idxBytes bigVec)) =
      [254, 253] ++ ([255, 255, 255] ++ (bigElem ++ ([0] ++ Witness.idxBytes bigVec))) := by
    rw [show ([254, 253, 255, 255, 255] : List Nat) = [254, 253] ++ [255, 255, 255] from rfl,
      List.append_assoc]
  rw [hsplit, drop_len_append 2 [254, 253] _ (by rfl)]
  rfl

theorem bigVec_take8 : ([255, 255] ++ (bigElem ++ ([0] ++ Witness.idxBytes bigVec))).take 8 =
    List.replicate 8 255 := by
  have hblen : bigElem.length = 2 ^ 32 - 3 := bigElem_length
  rw [List.take_append_eq_append_take]
  have h1 : ([255, 255] : List Nat).take 8 = [255, 255] := by decide
  have h2 : (8:Nat) - ([255, 255] : List Nat).length = 6 := by decide
  rw [h1, h2, List.take_append_eq_append_take]
  have h3 : bigElem.take 6 = List.replicate 6 255 := by
    unfold bigElem
    have hm : (6 : Nat) ⊓ (2 ^ 32 - 3) = 6 := by omega
    rw [List.take_replicate, hm]
  have h4 : (6:Nat) - bigElem.length = 0 := by omega
  rw [h3, h4, List.take_zero, List.append_nil]
  decide

theorem bigVec_len8 : ¬ (([255, 255] ++ (bigElem ++ ([0] ++ Witness.idxBytes bigVec))).length < 8) := by
  rw [List.length_append, List.length_append, List.length_append, bigElem_length]
  omega

theorem bigVec_varint_at2 :
    ∃ tail, VarInt.decode
      ((Witness.payloadBytes bigVec ++ Witness.idxBytes bigVec).drop 2) =
      .ok (2 ^ 64 - 1, tail) := by
  rw [bigVec_drop2]
  refine ⟨([255, 255] ++ (bigElem ++ ([0] ++ Witness.idxBytes bigVec))).drop 8, ?_⟩
  simp only [VarInt.decode]
  rw [if_pos trivial, if_neg bigVec_len8, bigVec_take8]
  have hdec : decodeLE (List.replicate 8 255) = 2 ^ 64 - 1 := by decide
  rw [hdec, if_neg (by norm_num)]

theorem bigVec_length : bigVec.length = 2 := rfl

theorem bigVec_content_length :
    (Witness.payloadBytes bigVec ++ Witness.idxBytes bigVec).length = 2 ^ 32 + 11 := by
  rw [List.length_append, Witness.payloadBytes_length, Witness.idxBytes_length,
    bigVec_contentSize, bigVec_length]

theorem bigVec_idx_entry (i : Nat) (hi : i < 2) :
    decodeLE (((Witness.payloadBytes bigVec ++ Witness.idxBytes bigVec).drop
      (Witness.contentSize bigVec + i * U32_SIZE)).take U32_SIZE) =
      Witness.offsetAt bigVec i % 2 ^ 32 := by
  have hdropi : (Witness.payloadBytes bigVec ++ Witness.idxBytes bigVec).drop
      (Witness.contentSize bigVec + i * U32_SIZE) =
      (Witness.idxBytes bigVec).drop (i * 4) := by
    rw [List.drop_append_eq_append_drop,
      List.drop_eq_nil_of_le (by rw [Witness.payloadBytes_length]; omega),
      List.nil_append, Witness.payloadBytes_length,
      show Witness.contentSize bigVec + i * U32_SIZE - Witness.contentSize bigVec =
        i * 4 from by simp only [U32_SIZE]; omega]
  rw [hdropi]
  show decodeLE (((Witness.idxBytes bigVec).drop (i * 4)).take 4) = _
  rw [Witness.idxBytes_get bigVec i (by rw [bigVec_length]; omega), decodeLE_leBytes,
    show (256:Nat) ^ 4 = 2 ^ 32 from by norm_num]

theorem bigVec_iter1 :
    Witness.iterCollect (Witness.payloadBytes bigVec ++ Witness.idxBytes bigVec)
      (Witness.contentSize bigVec) 1 = none := by
  rw [Witness.iterCollect,
    dif_neg (by
      rw [bigVec_content_length, bigVec_contentSize]
      simp only [U32_SIZE]
      omega),
    bigVec_idx_entry 1 (by omega), bigVec_offset1,
    show ((2:Nat) ^ 32 + 2) % 2 ^ 32 = 2 from by norm_num,
    if_neg (by rw [bigVec_content_length]; omega)]
  obtain ⟨tail, htail⟩ := bigVec_varint_at2
  rw [htail]
  simp only
  have hlen9 : VarInt.len (2 ^ 64 - 1) = 9 := by decide
  rw [if_pos (by rw [bigVec_content_length, hlen9]; omega)]

theorem bigVec_varint_at0 :
    VarInt.decode (Witness.payloadBytes bigVec ++ Witness.idxBytes bigVec) =
      .ok (2 ^ 32 - 3, (bigElem ++ [0]) ++ Witness.idxBytes bigVec) := by
  rw [bigVec_payload, List.append_assoc,
    show ([254, 253, 255, 255, 255] : List Nat) = VarInt.encode (2 ^ 32 - 3) from by decide,
    VarInt.decode_encode _ (by norm_num)]

theorem bigVec_iter0 :
    Witness.iterCollect (Witness.payloadBytes bigVec ++ Witness.idxBytes bigVec)
      (Witness.contentSize bigVec) 0 = none := by
  rw [Witness.iterCollect,
    dif_neg (by
      rw [bigVec_content_length, bigVec_contentSize]
      simp only [U32_SIZE]
      omega),
    bigVec_idx_entry 0 (by omega)]
  have hoff0 : Witness.offsetAt bigVec 0 % 2 ^ 32 = 0 := rfl
  rw [hoff0, if_neg (Nat.not_lt_zero _), List.drop_zero, bigVec_varint_at0]
  simp only
  rw [if_neg (by rw [bigVec_content_length, bigElem_varint_len]; omega)]
  rw [show (0:Nat) + 1 = 1 from rfl, bigVec_iter1]

theorem bigVec_to_vec_none : (Witness.from_vec bigVec).to_vec = none := by
  rw [Witness.to_vec, Witness.from_vec_spec]
  exact bigVec_iter0

theorem entryOk_eq_false_of (w : Witness) (i o v : Nat) (t : List Nat)
    (h1 : decode_cursor w.content w.indices_start i = some o)
    (h2 : VarInt.decode (w.content.drop o) = .ok (v, t))
    (h3 : ¬ (o + VarInt.len v + v ≤ w.indices_start)) :
    entryOk w i = false := by
  unfold entryOk
  rw [h1]
  simp only
  rw [h2]
  simp only
  exact decide_eq_false h3

theorem Witness.nth_eq_element_at_of (w : Witness) (i pos : Nat)
    (h : decode_cursor w.content w.indices_start i = some pos) :
    w.nth i = w.element_at pos := by
  unfold Witness.nth
  rw [h]

theorem Witness.element_at_panicked_of (w : Witness) (index v : Nat) (t : List Nat)
    (hle : ¬ (w.content.length < index))
    (h2 : VarInt.decode (w.content.drop index) = .ok (v, t))
    (h3 : w.content.length < index + VarInt.len v + v) :
    w.element_at index = .panicked := by
  unfold Witness.element_at
  rw [if_neg hle, h2]
  simp only
  rw [if_pos h3]

theorem Witness.get_tapscript_panicked_of (w : Witness) (h : w.last = .panicked) :
    w.get_tapscript = .panicked := by
  unfold Witness.get_tapscript
  rw [h]

theorem bigVec_entryOk1_false : entryOk (Witness.from_vec bigVec) 1 = false := by
  rw [Witness.from_vec_spec]
  obtain ⟨tail, htail⟩ := bigVec_varint_at2
  refine entryOk_eq_false_of _ 1 2 (2 ^ 64 - 1) tail ?_ ?_ ?_
  · show decode_cursor (Witness.payloadBytes bigVec ++ Witness.idxBytes bigVec)
      (Witness.contentSize bigVec) 1 = some 2
    rw [Witness.decode_cursor_layout bigVec 1
        (by rw [bigVec_contentSize]; simp only [U32_SIZE]; norm_num),
      if_pos (by rw [bigVec_length]; omega),
      bigVec_offset1, show ((2:Nat) ^ 32 + 2) % 2 ^ 32 = 2 from by norm_num]
  · show VarInt.decode ((Witness.payloadBytes bigVec ++ Witness.idxBytes bigVec).drop 2) =
      .ok (2 ^ 64 - 1, tail)
    exact htail
  · show ¬ (2 + VarInt.len (2 ^ 64 - 1) + (2 ^ 64 - 1) ≤ Witness.contentSize bigVec)
    rw [bigVec_contentSize, show VarInt.len (2 ^ 64 - 1) = 9 from by decide]
    decide

theorem bigVec_invariantHolds_false :
    invariantHolds (Witness.from_vec bigVec) = false := by
  rw [invariantHolds]
  have hwe : (Witness.from_vec bigVec).witness_elements = 2 := by
    rw [Witness.from_vec_spec]
    rfl
  rw [hwe, show List.range 2 = [0, 1] from by decide,
    List.all_cons, List.all_cons, List.all_nil, bigVec_entryOk1_false]
  simp only [Bool.and_false, Bool.false_and]

theorem applyOps_bigVec :
    applyOps [Op.push bigElem, Op.push []] = Witness.from_vec bigVec := by
  rw [applyOps, List.foldl_cons, List.foldl_cons, List.foldl_nil]
  simp only [applyOp]
  rw [show Witness.new = Witness.from_vec [] from rfl,
    Witness.push_from_vec, Witness.push_from_vec,
    show (([] ++ [bigElem]) ++ [[]] : List (List Nat)) = bigVec from rfl]

theorem Witness.from_vec_elements (l : List (List Nat)) :
    (Witness.from_vec l).witness_elements = l.length := by
  rw [Witness.from_vec_spec]

theorem Witness.len_from_vec (l : List (List Nat)) :
    (Witness.from_vec l).len = l.length := by
  unfold Witness.len
  exact Witness.from_vec_elements l

theorem Witness.last_from_vec_nil :
    (Witness.from_vec ([] : List (List Nat))).last = .absent := rfl

theorem Witness.last_from_vec (l : List (List Nat))
    (hcs : Witness.contentSize l < 2 ^ 32) (hne : l ≠ []) :
    (Witness.from_vec l).last = .found (l.getD (l.length - 1) []) := by
  unfold Witness.last
  have hpos : 0 < l.length := List.length_pos.mpr hne
  rw [Witness.from_vec_elements, if_neg (by omega),
    Witness.nth_from_vec_bounded l (l.length - 1) hcs (by omega)]

theorem Witness.second_to_last_from_vec_small (l : List (List Nat))
    (h : l.length ≤ 1) :
    (Witness.from_vec l).second_to_last = .absent := by
  unfold Witness.second_to_last
  rw [Witness.from_vec_elements, if_pos h]

theorem Witness.second_to_last_from_vec (l : List (List Nat))
    (hcs : Witness.contentSize l < 2 ^ 32) (h : 2 ≤ l.length) :
    (Witness.from_vec l).second_to_last = .found (l.getD (l.length - 2) []) := by
  unfold Witness.second_to_last
  rw [Witness.from_vec_elements, if_neg (by omega),
    Witness.nth_from_vec_bounded l (l.length - 2) hcs (by omega)]

theorem bigVec_nth1_panicked :
    (Witness.from_vec bigVec).nth 1 = Witness.Lookup.panicked := by
  rw [Witness.from_vec_spec]
  obtain ⟨tail, htail⟩ := bigVec_varint_at2
  rw [Witness.nth_eq_element_at_of _ 1 2 (by
    show decode_cursor (Witness.payloadBytes bigVec ++ Witness.idxBytes bigVec)
      (Witness.contentSize bigVec) 1 = some 2
    rw [Witness.decode_cursor_layout bigVec 1
        (by rw [bigVec_contentSize]; simp only [U32_SIZE]; norm_num),
      if_pos (by rw [bigVec_length]; omega),
      bigVec_offset1, show ((2:Nat) ^ 32 + 2) % 2 ^ 32 = 2 from by norm_num])]
  refine Witness.element_at_panicked_of _ 2 (2 ^ 64 - 1) tail ?_ ?_ ?_
  · show ¬ ((Witness.payloadBytes bigVec ++ Witness.idxBytes bigVec).length < 2)
    rw [bigVec_content_length]
    omega
  · show VarInt.decode ((Witness.payloadBytes bigVec ++ Witness.idxBytes bigVec).drop 2) =
      .ok (2 ^ 64 - 1, tail)
    exact htail
  · show (Witness.payloadBytes bigVec ++ Witness.idxBytes bigVec).length <
      2 + VarInt.len (2 ^ 64 - 1) + (2 ^ 64 - 1)
    rw [bigVec_content_length, show VarInt.len (2 ^ 64 - 1) = 9 from by decide]
    omega

theorem bigVec_last_panicked :
    (Witness.from_vec bigVec).last = Witness.Lookup.panicked := by
  rw [Witness.last, Witness.from_vec_elements, bigVec_length,
    if_neg (by omega), show (2:Nat) - 1 = 1 from rfl]
  exact bigVec_nth1_panicked

theorem getD_snoc_len (l : List (List Nat)) (e : List Nat) :
    (l ++ [e]).getD l.length [] = e := by
  induction l with
  | nil => rfl
  | cons a t ih =>
    rw [List.cons_append, List.length_cons, List.getD_cons_succ]
    exact ih

theorem getD_append_lt (l : List (List Nat)) (e : List Nat) (i : Nat)
    (h : i < l.length) :
    (l ++ [e]).getD i [] = l.getD i [] := by
  rw [List.getD_eq_getElem?_getD, List.getD_eq_getElem?_getD,
    List.getElem?_append, if_pos h]

theorem getLastD_eq_getD (l : List (List Nat)) :
    l.getLastD [] = l.getD (l.length - 1) [] := by
  rw [List.getLastD_eq_getLast?, List.getLast?_eq_getElem?,
    List.getD_eq_getElem?_getD]

theorem serializedSum_eq_contentSize (l : List (List Nat)) :
    (l.map (fun el => VarInt.len el.length + el.length)).sum =
      Witness.contentSize l := by
  induction l with
  | nil => rfl
  | cons a t ih =>
    rw [List.map_cons, List.sum_cons, ih, Witness.contentSize_cons]
    omega

theorem Witness.serialized_len_from_vec (l : List (List Nat))
    (hoff : ∀ i, i < l.length → Witness.offsetAt l i < 2 ^ 32)
    (hlen : ∀ i, i < l.length → (l.getD i []).length < 2 ^ 64) :
    (Witness.from_vec l).serialized_len =
      some (Witness.contentSize l + VarInt.len l.length) := by
  unfold Witness.serialized_len
  rw [Witness.from_vec_spec]
  simp only
  rw [Witness.iterCollect_from_vec l hoff hlen l.length 0 (by omega) (by omega),
    List.drop_zero, Option.map_some', serializedSum_eq_contentSize]

/-! ### The claims -/

/-- Claim C1: wire round-trip.  For every byte sequence `B` (bytes < 256) on
which `consensus_decode` succeeds with stack `w` and unconsumed suffix
`rest`, re-encoding `w` reproduces the consumed prefix of `B` exactly:
`(consensus_encode w).1 ++ rest = B`.  In particular a fully-consumed valid
encoding is reproduced byte for byte. -/
theorem claim_C1_wire_round_trip (B : List Nat) (w : Witness) (rest : List Nat)
    (hB : ∀ b ∈ B, b < 256)
    (h : Witness.consensus_decode B = .ok (w, rest)) :
    (Witness.consensus_encode w).1 ++ rest = B := by
  obtain ⟨els, _, _, hbytes⟩ := Witness.consensus_decode_ok B w rest h
  exact hbytes hB

set_option maxRecDepth 4000 in
theorem claim_C1_witness :
    (∀ b ∈ [2, 1, 7, 0], b < 256) ∧
    Witness.consensus_decode [2, 1, 7, 0] =
      .ok ({ content := [1, 7, 0, 0, 0, 0, 0, 2, 0, 0, 0],
             witness_elements := 2, indices_start := 3 }, []) ∧
    (Witness.consensus_encode
      { content := [1, 7, 0, 0, 0, 0, 0, 2, 0, 0, 0],
        witness_elements := 2, indices_start := 3 }).1 ++ [] = [2, 1, 7, 0] :=
  ⟨by decide, by rfl,
    claim_C1_wire_round_trip [2, 1, 7, 0] _ [] (by decide) (by rfl)⟩

/-- Claim C2 (corrected): bulk-construction round-trip.  `to_vec ∘ from_vec`
is the identity on collections whose packed payload region is smaller than
2^32 bytes; the unrestricted claim fails on the
wrapped-index layout `bigVec`, where a 32-bit index entry wraps. -/
theorem claim_C2_bulk_round_trip (l : List (List Nat))
    (hcs : Witness.contentSize l < 2 ^ 32) :
    (Witness.from_vec l).to_vec = some l :=
  Witness.to_vec_from_vec l hcs

theorem claim_C2_witness :
    Witness.contentSize [[1], [2, 3]] < 2 ^ 32 ∧
    (Witness.from_vec [[1], [2, 3]]).to_vec = some [[1], [2, 3]] :=
  ⟨by decide, claim_C2_bulk_round_trip [[1], [2, 3]] (by decide)⟩

theorem claim_C2_counterexample :
    (Witness.from_vec bigVec).to_vec ≠ some bigVec := by
  rw [bigVec_to_vec_none]
  exact fun h => Option.noConfusion h

/-- Claim C3 (corrected): invariant preservation.  Every operation sequence
yields a canonical layout `from_vec l`, and the stated invariants hold
whenever that layout's payload region is smaller than 2^32 bytes (so the
32-bit index entries do not wrap); the unrestricted claim fails after pushing the
wrapped-index layout `bigVec`. -/
theorem claim_C3_invariant_preservation (ops : List Op) (l : List (List Nat))
    (hl : applyOps ops = Witness.from_vec l)
    (hcs : Witness.contentSize l < 2 ^ 32) :
    invariantHolds (applyOps ops) = true := by
  rw [hl]
  exact invariantHolds_from_vec l hcs

theorem claim_C3_witness :
    applyOps [Op.push [7]] = Witness.from_vec [[7]] ∧
    Witness.contentSize [[7]] < 2 ^ 32 ∧
    invariantHolds (applyOps [Op.push [7]]) = true :=
  ⟨by decide, by decide,
    claim_C3_invariant_preservation [Op.push [7]] [[7]] (by decide) (by decide)⟩

theorem claim_C3_counterexample :
    invariantHolds (applyOps [Op.push bigElem, Op.push []]) = false := by
  rw [applyOps_bigVec]
  exact bigVec_invariantHolds_false

/-- Claim C4: oversized-allocation rejection.  Whenever the per-element
computation `cursor + declared_length + prefix_width` exceeds
`MAX_VEC_SIZE` (including by overflowing the 64-bit `usize` arithmetic),
the decode loop fails with an oversized-allocation error carrying the
requested size — or `USIZE_MAX` when the checked addition overflowed — and
the permitted maximum; the error aborts the decode, so no stack is
returned. -/
theorem claim_C4_oversized_rejection (r : List Nat) (n' cursor : Nat)
    (content indices : List Nat) (v : Nat) (r₁ : List Nat)
    (hd : VarInt.decode r = .ok (v, r₁))
    (hbig : MAX_VEC_SIZE < cursor + v + VarInt.len v) :
    Witness.decodeElems r (n' + 1) cursor content indices =
      .error (.oversizedVectorAllocation
        (if cursor + v + VarInt.len v ≤ USIZE_MAX then cursor + v + VarInt.len v
          else USIZE_MAX) MAX_VEC_SIZE) := by
  unfold Witness.decodeElems
  rw [hd]
  simp only
  by_cases h1 : USIZE_MAX < cursor + v
  · rw [show checked_add cursor v = none from by unfold checked_add; rw [if_pos h1]]
    simp only
    rw [if_neg (by omega)]
  · rw [show checked_add cursor v = some (cursor + v) from by
      unfold checked_add; rw [if_neg h1]]
    simp only
    by_cases h2 : USIZE_MAX < cursor + v + VarInt.len v
    · rw [show checked_add (cursor + v) (VarInt.len v) = none from by
        unfold checked_add; rw [if_pos h2]]
      simp only
      rw [if_neg (by omega)]
    · rw [show checked_add (cursor + v) (VarInt.len v) =
          some (cursor + v + VarInt.len v) from by
        unfold checked_add; rw [if_neg h2]]
      simp only
      rw [if_pos hbig, if_pos (by omega)]

theorem claim_C4_witness :
    VarInt.decode [254, 64, 75, 76, 0] = .ok (5000000, []) ∧
    MAX_VEC_SIZE < 0 + 5000000 + VarInt.len 5000000 ∧
    Witness.decodeElems [254, 64, 75, 76, 0] (0 + 1) 0 [] [] =
      .error (.oversizedVectorAllocation
        (if 0 + 5000000 + VarInt.len 5000000 ≤ USIZE_MAX
          then 0 + 5000000 + VarInt.len 5000000 else USIZE_MAX) MAX_VEC_SIZE) :=
  ⟨by rfl, by decide,
    claim_C4_oversized_rejection [254, 64, 75, 76, 0] 0 0 [] [] 5000000 []
      (by rfl) (by decide)⟩

/-- Claim C5 (corrected): append monotonicity.  On any canonical stack whose
payload (including the pushed element) stays below 2^32 bytes, `push e`
increases `len` by one, makes `last` return `e`, and moves the previous
`last` to `second_to_last` (on an empty stack both sides are `absent`).
The unrestricted claim fails: pushing onto a stack whose payload has
reached 2^32 bytes leaves a wrapped 32-bit index entry, and `last` then
panics instead of returning the pushed element. -/
theorem claim_C5_push_monotone (l : List (List Nat)) (e : List Nat)
    (hcs : Witness.contentSize (l ++ [e]) < 2 ^ 32) :
    ((Witness.from_vec l).push e).len = (Witness.from_vec l).len + 1 ∧
    ((Witness.from_vec l).push e).last = .found e ∧
    ((Witness.from_vec l).push e).second_to_last = (Witness.from_vec l).last := by
  have hcl : Witness.contentSize l < 2 ^ 32 := by
    rw [Witness.contentSize_append] at hcs
    omega
  have hlen1 : ([e] : List (List Nat)).length = 1 := rfl
  rw [Witness.push_from_vec]
  refine ⟨?_, ?_, ?_⟩
  · rw [Witness.len_from_vec, Witness.len_from_vec, List.length_append, hlen1]
  · rw [Witness.last_from_vec _ hcs (by simp), List.length_append, hlen1]
    have h1 : l.length + 1 - 1 = l.length := rfl
    rw [h1, getD_snoc_len]
  · by_cases hl : l = []
    · subst hl
      rw [show ([] ++ [e] : List (List Nat)) = [e] from rfl,
        Witness.second_to_last_from_vec_small [e] (by rw [hlen1])]
      exact Witness.last_from_vec_nil.symm
    · have hpos : 0 < l.length := List.length_pos.mpr hl
      have h2 : 2 ≤ (l ++ [e]).length := by
        rw [List.length_append, hlen1]
        omega
      rw [Witness.second_to_last_from_vec _ hcs h2,
        Witness.last_from_vec l hcl hl, List.length_append, hlen1]
      have hidx : l.length + 1 - 2 = l.length - 1 := by omega
      rw [hidx, getD_append_lt l e _ (by omega)]

theorem claim_C5_witness :
    Witness.contentSize ([[1]] ++ [[2, 3]]) < 2 ^ 32 ∧
    (((Witness.from_vec [[1]]).push [2, 3]).len = (Witness.from_vec [[1]]).len + 1 ∧
      ((Witness.from_vec [[1]]).push [2, 3]).last = .found [2, 3] ∧
      ((Witness.from_vec [[1]]).push [2, 3]).second_to_last =
        (Witness.from_vec [[1]]).last) :=
  ⟨by decide, claim_C5_push_monotone [[1]] [2, 3] (by decide)⟩

theorem claim_C5_counterexample :
    ((Witness.from_vec [bigElem]).push []).last ≠ .found [] := by
  rw [Witness.push_from_vec,
    show ([bigElem] ++ [[]] : List (List Nat)) = bigVec from rfl,
    bigVec_last_panicked]
  exact fun h => Witness.Lookup.noConfusion h

/-- Claim C6 (corrected): tapscript extraction.  On any canonical stack
(payload below 2^32 bytes) `get_tapscript` agrees with the spec's
description: absent on the empty stack; otherwise the candidate position is
3 from the end when the stack has at least two elements and the last
element starts with 0x50, else 2 from the end; absent when the stack is too
short, else the element at that position.  The claim's universal
quantification over every stack fails: on the reachable wrapped-index
layout `bigVec` the lookup of the last element panics, so `get_tapscript`
panics instead of returning the element two from the end. -/
theorem claim_C6_tapscript (l : List (List Nat))
    (hcs : Witness.contentSize l < 2 ^ 32) :
    (Witness.from_vec l).get_tapscript = tapscriptSpec l := by
  unfold Witness.get_tapscript tapscriptSpec
  by_cases h0 : l.length = 0
  · have hl : l = [] := List.length_eq_zero.mp h0
    subst hl
    rfl
  · have hne : l ≠ [] := fun h => h0 (by rw [h]; rfl)
    rw [Witness.last_from_vec l hcs hne]
    simp only
    rw [Witness.len_from_vec, getLastD_eq_getD l, if_neg h0]
    by_cases hcond : 2 ≤ l.length ∧ (l.getD (l.length - 1) []).head? = some 0x50
    · rw [if_pos hcond]
      by_cases hlt : l.length < 3
      · rw [if_pos hlt, if_pos hlt]
      · rw [if_neg hlt, if_neg hlt,
          Witness.nth_from_vec_bounded l (l.length - 3) hcs (by omega)]
    · rw [if_neg hcond]
      by_cases hlt : l.length < 2
      · rw [if_pos hlt, if_pos hlt]
      · rw [if_neg hlt, if_neg hlt,
          Witness.nth_from_vec_bounded l (l.length - 2) hcs (by omega)]

theorem claim_C6_witness :
    Witness.contentSize [[1], [2], [3]] < 2 ^ 32 ∧
    (Witness.from_vec [[1], [2], [3]]).get_tapscript = tapscriptSpec [[1], [2], [3]] :=
  ⟨by decide, claim_C6_tapscript [[1], [2], [3]] (by decide)⟩

theorem claim_C6_counterexample :
    (Witness.from_vec bigVec).get_tapscript ≠ tapscriptSpec bigVec := by
  rw [Witness.get_tapscript_panicked_of _ bigVec_last_panicked,
    show tapscriptSpec bigVec = .found bigElem from rfl]
  exact fun h => Witness.Lookup.noConfusion h

/-- Claim C7: encode output and return value.  On any stack satisfying the
data-model region arithmetic, `consensus_encode` writes exactly the element
count as a varint followed by the payload region `content[0, indices_start)`
verbatim (never an index-region byte), and returns the payload length plus
the count prefix's width. -/
theorem claim_C7_encode_output (w : Witness)
    (h1 : w.indices_start ≤ w.content.length)
    (h2 : w.content.length - w.indices_start = w.witness_elements * U32_SIZE) :
    Witness.consensus_encode w =
      (VarInt.encode w.witness_elements ++ w.content.take w.indices_start,
        w.indices_start + VarInt.len w.witness_elements) := by
  unfold Witness.consensus_encode
  simp only
  rw [show w.content.length - w.witness_elements * U32_SIZE =
    w.indices_start from by omega]

theorem claim_C7_witness :
    (3 ≤ ([1, 7, 0, 0, 0, 0, 0, 2, 0, 0, 0] : List Nat).length) ∧
    (([1, 7, 0, 0, 0, 0, 0, 2, 0, 0, 0] : List Nat).length - 3 = 2 * U32_SIZE) ∧
    Witness.consensus_encode
      { content := [1, 7, 0, 0, 0, 0, 0, 2, 0, 0, 0],
        witness_elements := 2, indices_start := 3 } =
      (VarInt.encode 2 ++ ([1, 7, 0, 0, 0, 0, 0, 2, 0, 0, 0] : List Nat).take 3,
        3 + VarInt.len 2) :=
  ⟨by decide, by decide,
    claim_C7_encode_output
      { content := [1, 7, 0, 0, 0, 0, 0, 2, 0, 0, 0],
        witness_elements := 2, indices_start := 3 } (by decide) (by decide)⟩

/-- Claim C8 (corrected): bounds behavior of the optional accessors.  On
any canonical stack with payload below 2^32 bytes: `nth i` is absent for
every `i ≥ len` whose `usize` offset arithmetic does not overflow; `last`
is absent exactly when the stack is empty; `second_to_last` is absent
exactly when the stack has at most one element.  The unrestricted claim
fails: at `i = 2^62` the source's `index * U32_SIZE` wraps modulo 2^64, so
`nth` reads index slot 0 and returns an element instead of absent. -/
theorem claim_C8_accessor_bounds (l : List (List Nat)) (i : Nat)
    (hcs : Witness.contentSize l < 2 ^ 32)
    (hno : Witness.contentSize l + i * U32_SIZE + U32_SIZE < 2 ^ 64) :
    (l.length ≤ i → (Witness.from_vec l).nth i = .absent) ∧
    ((Witness.from_vec l).last = .absent ↔ l.length = 0) ∧
    ((Witness.from_vec l).second_to_last = .absent ↔ l.length ≤ 1) := by
  refine ⟨fun hi => Witness.nth_from_vec_ge l i hi hno, ⟨?_, ?_⟩, ⟨?_, ?_⟩⟩
  · intro habs
    by_contra h0
    have hne : l ≠ [] := fun h => h0 (by rw [h]; rfl)
    rw [Witness.last_from_vec l hcs hne] at habs
    exact Witness.Lookup.noConfusion habs
  · intro h0
    have hl : l = [] := List.length_eq_zero.mp h0
    subst hl
    exact Witness.last_from_vec_nil
  · intro habs
    by_contra h1
    rw [Witness.second_to_last_from_vec l hcs (by omega)] at habs
    exact Witness.Lookup.noConfusion habs
  · intro h1
    exact Witness.second_to_last_from_vec_small l h1

theorem claim_C8_witness :
    Witness.contentSize [[5]] < 2 ^ 32 ∧
    Witness.contentSize [[5]] + 3 * U32_SIZE + U32_SIZE < 2 ^ 64 ∧
    ((([[5]] : List (List Nat)).length ≤ 3 →
        (Witness.from_vec [[5]]).nth 3 = .absent) ∧
      ((Witness.from_vec [[5]]).last = .absent ↔ ([[5]] : List (List Nat)).length = 0) ∧
      ((Witness.from_vec [[5]]).second_to_last = .absent ↔
        ([[5]] : List (List Nat)).length ≤ 1)) :=
  ⟨by decide, by decide, claim_C8_accessor_bounds [[5]] 3 (by decide) (by decide)⟩

theorem claim_C8_counterexample :
    ([[7]] : List (List Nat)).length ≤ 2 ^ 62 ∧
    (Witness.from_vec [[7]]).nth (2 ^ 62) ≠ .absent := by
  decide

/-- Claim C9 (corrected): indexed-access operator contract.  On any
canonical stack with payload below 2^32 bytes and non-overflowing offset
arithmetic, the operator returns the same lookup as `nth i` and does not
panic for `i < len`, and panics for `i ≥ len`.  The unrestricted claim
fails in both directions: at `i = 2^62 ≥ len` the wrapped `usize` offset
arithmetic makes `nth` read slot 0 and the operator returns that element
instead of panicking, and on a reachable wrapped-index stack `nth` can
fail for an in-range index, firing the operator's fatal branch. -/
theorem claim_C9_index_operator (l : List (List Nat)) (i : Nat)
    (hcs : Witness.contentSize l < 2 ^ 32)
    (hno : Witness.contentSize l + i * U32_SIZE + U32_SIZE < 2 ^ 64) :
    (i < l.length → (Witness.from_vec l).index i = (Witness.from_vec l).nth i ∧
      (Witness.from_vec l).index i ≠ .panicked) ∧
    (l.length ≤ i → (Witness.from_vec l).index i = .panicked) := by
  constructor
  · intro hi
    have hn := Witness.nth_from_vec_bounded l i hcs hi
    unfold Witness.index
    rw [hn]
    exact ⟨rfl, fun h => Witness.Lookup.noConfusion h⟩
  · intro hi
    unfold Witness.index
    rw [Witness.nth_from_vec_ge l i hi hno]

theorem claim_C9_witness :
    Witness.contentSize [[9]] < 2 ^ 32 ∧
    Witness.contentSize [[9]] + 0 * U32_SIZE + U32_SIZE < 2 ^ 64 ∧
    ((0 < ([[9]] : List (List Nat)).length →
        (Witness.from_vec [[9]]).index 0 = (Witness.from_vec [[9]]).nth 0 ∧
        (Witness.from_vec [[9]]).index 0 ≠ .panicked) ∧
      (([[9]] : List (List Nat)).length ≤ 0 →
        (Witness.from_vec [[9]]).index 0 = .panicked)) :=
  ⟨by decide, by decide, claim_C9_index_operator [[9]] 0 (by decide) (by decide)⟩

theorem claim_C9_counterexample :
    ([[8]] : List (List Nat)).length ≤ 2 ^ 62 ∧
    (Witness.from_vec [[8]]).index (2 ^ 62) ≠ .panicked := by
  decide

/-- Claim C10: `serialized_len` equals the byte count `consensus_encode`
returns for the same stack, over every stack satisfying the data-model
invariants.  A stack satisfies the spec's invariants 1-5 exactly when it is
a canonical layout `from_vec l` whose index entries store the true
cumulative offsets (invariant 5's exact tiling forces every offset to fit
the four-byte entry, hence `< 2^32`, and every declared length to equal the
element's length, hence `< 2^64`); under those hypotheses both sides equal
the per-element (prefix width + length) sum plus the width of the
element-count prefix. -/
theorem claim_C10_serialized_len (l : List (List Nat))
    (hoff : ∀ i ∈ List.range l.length, Witness.offsetAt l i < 2 ^ 32)
    (hlen : ∀ el ∈ l, el.length < 2 ^ 64) :
    (Witness.from_vec l).serialized_len =
      some ((Witness.consensus_encode (Witness.from_vec l)).2) := by
  have hoff2 : ∀ i, i < l.length → Witness.offsetAt l i < 2 ^ 32 :=
    fun i hi => hoff i (List.mem_range.mpr hi)
  have hlen2 : ∀ i, i < l.length → (l.getD i []).length < 2 ^ 64 := by
    intro i hi
    rw [List.getD_eq_getElem l [] hi]
    exact hlen _ (List.getElem_mem hi)
  rw [Witness.serialized_len_from_vec l hoff2 hlen2,
    Witness.consensus_encode_from_vec]

theorem claim_C10_witness :
    (∀ i ∈ List.range ([[4, 2]] : List (List Nat)).length,
      Witness.offsetAt [[4, 2]] i < 2 ^ 32) ∧
    (∀ el ∈ ([[4, 2]] : List (List Nat)), el.length < 2 ^ 64) ∧
    (Witness.from_vec [[4, 2]]).serialized_len =
      some ((Witness.consensus_encode (Witness.from_vec [[4, 2]])).2) :=
  ⟨by decide, by decide, claim_C10_serialized_len [[4, 2]] (by decide) (by decide)⟩
